import Mathlib

/-!
Verification development for the data-preprocessing repository
(`missing_value_imputers` and `OutlierHandler` notebooks).

The embedding models a pandas DataFrame as an ordered association list of
named columns, where each cell is `Option Val` (`none` is the missing
marker, pandas NaN). Numeric values are exact rationals represented by the
kernel-reducible type `Q` below (floats are modelled exactly; float equality
is value equality). Vectorized pandas operations are modelled as structural
recursion over columns.

Python semantics modelled explicitly:
  - `dict` assignment replaces an existing key in place (`dictInsert`);
  - `Counter(...).most_common()` sorts by count descending with a stable
    sort over first-insertion order, so ties are broken by first encounter
    (`firstOccs` / `pickMax` / `firstMode`);
  - `groupby` produces groups keyed by distinct key values in ascending
    order (`sortedKeys`), each group keeping input row order;
  - `Series.quantile` / `np.percentile` use linear interpolation
    (`percentileQ`); `pandas median` averages the two middle values for an
    even count (`medianQ`);
  - comparisons with NaN are false, so masked assignments never touch
    missing cells of the mask column.
-/

/-- Exact rational: numerator and (denominator - 1), so the denominator
`dm1 + 1` is always positive. Canonicalized by `mkQ`, so structural
equality of values produced by the arithmetic below coincides with value
equality (mirroring float equality in the source). -/
structure Q where
  num : ℤ
  dm1 : ℕ
deriving DecidableEq

/-- Denominator as a positive integer. -/
def Q.den (a : Q) : ℤ := (a.dm1 : ℤ) + 1

/-- Canonical constructor: reduce `n / d` (with `d ≠ 0`) to lowest terms
with a positive denominator. -/
def mkQ (n d : ℤ) : Q :=
  let n1 := if d < 0 then -n else n
  let dd := d.natAbs
  let g := Nat.gcd n1.natAbs dd
  if g = 0 then ⟨0, 0⟩ else ⟨n1 / (g : ℤ), dd / g - 1⟩

def Q.ofInt (n : ℤ) : Q := ⟨n, 0⟩

def Q.ofNat (n : ℕ) : Q := ⟨(n : ℤ), 0⟩

def Q.add (a b : Q) : Q := mkQ (a.num * b.den + b.num * a.den) (a.den * b.den)

def Q.sub (a b : Q) : Q := mkQ (a.num * b.den - b.num * a.den) (a.den * b.den)

def Q.mul (a b : Q) : Q := mkQ (a.num * b.num) (a.den * b.den)

def Q.div (a b : Q) : Q := mkQ (a.num * b.den) (a.den * b.num)

/-- Value comparison `a ≤ b` by cross multiplication (denominators are
positive by construction). -/
def Q.ble (a b : Q) : Bool := decide (a.num * b.den ≤ b.num * a.den)

/-- Value comparison `a < b`. -/
def Q.blt (a b : Q) : Bool := decide (a.num * b.den < b.num * a.den)

/-- Value equality (float `==` of the source). On canonical representations
this coincides with structural equality. -/
def Q.beq (a b : Q) : Bool := decide (a.num * b.den = b.num * a.den)

/-- Floor of a rational (used by percentile interpolation on nonnegative
positions). -/
def Q.floor (a : Q) : ℤ := Int.ediv a.num a.den

/-- A dataset value: numeric or categorical. -/
inductive Val where
  | num (q : Q)
  | str (s : String)
deriving DecidableEq

/-- Numeric content of a value, when it is numeric. -/
def Val.numOf : Val → Option Q
  | .num q => some q
  | .str _ => none

/-- Numeric content with the junk default 0; only ever applied to numeric
columns in modelled runs (a string in a numeric pandas operation would
raise, which is outside the modelled domain). -/
def Val.asQ (v : Val) : Q :=
  match v with
  | .num q => q
  | .str _ => Q.ofInt 0

/-- A cell: `none` is the missing marker (NaN). -/
abbrev Cell := Option Val

/-- A DataFrame: ordered association list of named columns. -/
abbrev Frame := List (String × List Cell)

/-- Python dict assignment `d[k] = v`: replace in place or append. The
same mechanism models pandas column assignment. -/
def dictInsert {β : Type} (d : List (String × β)) (k : String) (v : β) :
    List (String × β) :=
  if d.any (fun p => decide (p.1 = k)) then
    d.map (fun p => if p.1 = k then (k, v) else p)
  else
    d ++ [(k, v)]

/-- Python dict read `d[k]` (first entry; entries are unique by
construction of `dictInsert`). -/
def dictGet {β : Type} (d : List (String × β)) (k : String) : Option β :=
  (d.find? (fun p => decide (p.1 = k))).map Prod.snd

/-- Column lookup, `x[col]`; `none` models the KeyError on a missing
column. -/
def colOf (x : Frame) (c : String) : Option (List Cell) := dictGet x c

/-- Column lookup with an empty default, for contexts where the column is
known to exist. -/
def getCol (x : Frame) (c : String) : List Cell :=
  (colOf x c).getD []

/-- Column assignment: replace every column of that name, or append a new
one (pandas enlarges on assignment to a fresh label). -/
def setCol (x : Frame) (c : String) (v : List Cell) : Frame := dictInsert x c v

/-- Insertion into a `Q`-sorted list (insertion sort step). -/
def insSorted (a : Q) : List Q → List Q
  | [] => [a]
  | b :: l => if Q.ble a b then a :: b :: l else b :: insSorted a l

/-- Sort a list of rationals ascending (models numpy / pandas sorting for
order statistics). -/
def sortQ (l : List Q) : List Q := l.foldr insSorted []

/-- Minimum of a column (0 for the empty column, which does not occur in
modelled runs). -/
def listMinQ : List Q → Q
  | [] => Q.ofInt 0
  | a :: l => l.foldl (fun u v => if Q.ble u v then u else v) a

/-- Maximum of a column. -/
def listMaxQ : List Q → Q
  | [] => Q.ofInt 0
  | a :: l => l.foldl (fun u v => if Q.ble u v then v else u) a

/-- `np.percentile`, linear interpolation between order statistics. -/
def percentileQ (xs : List Q) (p : Q) : Q :=
  let s := sortQ xs
  match s with
  | [] => Q.ofInt 0
  | _ :: _ =>
    let h := Q.mul p (Q.ofNat (s.length - 1))
    let j := (Q.floor h).toNat
    let a := s.getD j (Q.ofInt 0)
    let b := s.getD (j + 1) a
    Q.add a (Q.mul (Q.sub h (Q.ofInt (Q.floor h))) (Q.sub b a))

/-- pandas median: middle order statistic, or the average of the two middle
ones for an even count; `none` for an empty list (NaN). -/
def medianQ (l : List Q) : Option Q :=
  let s := sortQ l
  let n := s.length
  if n = 0 then none
  else if n % 2 = 1 then some (s.getD (n / 2) (Q.ofInt 0))
  else some (Q.div (Q.add (s.getD (n / 2 - 1) (Q.ofInt 0)) (s.getD (n / 2) (Q.ofInt 0)))
      (Q.ofInt 2))

/-- First element of maximal `count` (counts taken in `full`): a later
element replaces the current best only when its count is strictly larger.
Scanning the list itself this realizes the stable descending sort of
`Counter.most_common` (keys in first-insertion order, stable under the
sort by count), whose head is the first-encountered element of maximal
count. -/
def pickMax (full : List Val) : List Val → Option Val
  | [] => none
  | a :: l =>
    match pickMax full l with
    | none => some a
    | some b => if full.count b > full.count a then some b else some a

/-- `Counter(l).most_common()[0][0]`: the most frequent element, ties
broken by first encounter; `none` for the empty list (IndexError). -/
def firstMode (l : List Val) : Option Val := pickMax l l

/-!
## Binning utility (`KBinsDiscretizer(encode='ordinal')`)

`fit`: a constant column is special-cased to a single bin (sklearn replaces
it with bin 0 and, with warnings suppressed as in the notebook, does not
raise); otherwise edges are `linspace(min, max, n_bins+1)` for "uniform"
or the `k/n_bins` percentiles for "quantile", the latter with edges closer
than `1e-8` to their predecessor removed. `transform` is
`np.searchsorted(edges[1:-1], v, side="right")`, i.e. the count of interior
edges `≤ v`.
-/

/-- Fitted state of the discretizer for one column. -/
inductive BinSpec where
  | constant
  | edges (interior : List Q)
deriving DecidableEq

/-- `linspace(mn, mx, nb+1)`. -/
def uniformEdges (mn mx : Q) (nb : ℕ) : List Q :=
  (List.range (nb + 1)).map (fun k =>
    Q.add mn (Q.div (Q.mul (Q.sub mx mn) (Q.ofNat k)) (Q.ofNat nb)))

/-- The `k/nb` quantiles of the fitted sample, `k = 0..nb`. -/
def quantileEdges (vals : List Q) (nb : ℕ) : List Q :=
  (List.range (nb + 1)).map (fun k => percentileQ vals (Q.div (Q.ofNat k) (Q.ofNat nb)))

/-- Drop an edge whose difference from the previous edge (of the original
list) is not greater than `1e-8` (`np.ediff1d`-based mask; the first edge
is always kept). -/
def dedupEdgesGo (prev : Q) : List Q → List Q
  | [] => []
  | e :: es =>
    if Q.blt (mkQ 1 100000000) (Q.sub e prev) then e :: dedupEdgesGo e es
    else dedupEdgesGo e es

def dedupEdges : List Q → List Q
  | [] => []
  | e :: es => e :: dedupEdgesGo e es

/-- Discretizer fit for one column (over the zero-filled fitted values). -/
def fitBinSpec (strategy : String) (nb : ℕ) (vals : List Q) : BinSpec :=
  if Q.beq (listMinQ vals) (listMaxQ vals) then .constant
  else if strategy = "uniform" then
    .edges (((uniformEdges (listMinQ vals) (listMaxQ vals) nb).drop 1).dropLast)
  else
    .edges (((dedupEdges (quantileEdges vals nb)).drop 1).dropLast)

/-- Discretizer transform for one value: index of its bin. -/
def binOf (spec : BinSpec) (v : Q) : ℕ :=
  match spec with
  | .constant => 0
  | .edges es => es.countP (fun e => Q.ble e v)

/-- `discretizer.transform(x[src].fillna(0))` for one column: missing cells
are zero-filled, then binned; the bin id is a float in the source, so it is
stored as a numeric value. -/
def binnedCol (spec : BinSpec) (col : List Cell) : List Val :=
  col.map (fun c => Val.num (Q.ofNat (binOf spec (Val.asQ (c.getD (Val.num (Q.ofInt 0)))))))

/-!
## Group statistic table (`df.groupby(src).agg(...)`)
-/

/-- Lexicographic comparison of character lists (Python string `<=`). -/
def charListLe : List Char → List Char → Bool
  | [], _ => true
  | _ :: _, [] => false
  | a :: s, b :: t => if a = b then charListLe s t else decide (a < b)

/-- Insert a key into the sorted distinct key list unless an equal key is
already present (`groupby` keys are the distinct values in ascending
order). Numeric keys sort by value, string keys lexicographically; in
modelled runs keys are never of mixed type. -/
def Val.bleKey : Val → Val → Bool
  | .num a, .num b => Q.ble a b
  | .str a, .str b => charListLe a.data b.data
  | .num _, .str _ => true
  | .str _, .num _ => false

def insertKey (a : Val) (l : List Val) : List Val :=
  if a ∈ l then l else insertKeyGo a l
where insertKeyGo (a : Val) : List Val → List Val
  | [] => [a]
  | b :: t => if Val.bleKey a b then a :: b :: t else b :: insertKeyGo a t

/-- Distinct keys of the rows, ascending. -/
def sortedKeys (ks : List Val) : List Val := ks.foldl (fun acc k => insertKey k acc) []

/-- Values of one group, in input row order. -/
def groupVals (rows : List (Val × Val)) (k : Val) : List Val :=
  rows.filterMap (fun r => if r.1 = k then some r.2 else none)

/-- `groupby(src, as_index=False).agg(stat)` then `to_dict`: an ordered
list of (key, statistic) pairs; a group whose statistic is undefined yields
no entry (does not occur for the statistics used here, as groups are
non-empty). -/
def groupStat (stat : List Val → Option Val) (rows : List (Val × Val)) : List (Val × Val) :=
  (sortedKeys (rows.map Prod.fst)).filterMap
    (fun k => (stat (groupVals rows k)).map (fun v => (k, v)))

/-- Median statistic over the numeric destination values. -/
def medianStat (l : List Val) : Option Val := (medianQ (l.filterMap Val.numOf)).map Val.num

/-- Mode statistic (`Counter(k).most_common()[0][0]`). -/
def modeStat (l : List Val) : Option Val := firstMode l

/-- Row pairs for a binned source: the binned key column is total, rows with
a missing destination are dropped (`dropna`). -/
def numRows (keys : List Val) (dcol : List Cell) : List (Val × Val) :=
  (keys.zip dcol).filterMap (fun p => p.2.map (fun v => (p.1, v)))

/-- Row pairs for a raw categorical source: rows where either side is
missing are dropped (`dropna`). -/
def catRows (scol dcol : List Cell) : List (Val × Val) :=
  (scol.zip dcol).filterMap (fun p =>
    match p.1, p.2 with
    | some k, some v => some (k, v)
    | _, _ => none)

/-!
## The masked fill of `transform`

`x.loc[(key_col == src_val) & (x[dst].isna()), dst] = dest_val` for one
table entry: a cell is overwritten exactly when its mask bit is set and it
is missing. A `none` cell of a raw source column sets no mask bit
(NaN == v is false).
-/

/-- Apply one masked assignment to a column. When the mask is shorter than
the column the remaining cells are untouched (the mask always has the full
column length in modelled runs). -/
def fillWhere (v : Val) : List Bool → List Cell → List Cell
  | b :: bs, c :: cs => (if b ∧ c = none then some v else c) :: fillWhere v bs cs
  | [], cs => cs
  | _ :: _, [] => []

/-- Equality mask of a snapshot key column against one table key
(`binned_x[[src]].iloc[:, 0] == src_val`). -/
def maskN (keys : List Val) (k : Val) : List Bool :=
  keys.map (fun u => decide (u = k))

/-- Equality mask of a raw source column against one table key
(`x[[src]].iloc[:, 0] == src_val`); a missing cell compares false. -/
def maskC (scol : List Cell) (k : Val) : List Bool :=
  scol.map (fun u => decide (u = some k))

/-- Column-level view of the masked assignments of one table: successive
`fillWhere` over the entries, with the mask of each entry derived from its
key. -/
def fillTbl (mask : Val → List Bool) (tbl : List (Val × Val)) (col : List Cell) : List Cell :=
  tbl.foldl (fun c kv => fillWhere kv.2 (mask kv.1) c) col

/-- Column names of a frame. -/
def names (x : Frame) : List String := x.map Prod.fst

/-- Keys of a fitted table. -/
def tblKeys (tbl : List (Val × Val)) : List Val := tbl.map Prod.fst

/-- `fillna(0)` on one cell. -/
def zfCell (c : Cell) : Cell := some (c.getD (Val.num (Q.ofInt 0)))

/-- Zero-fill the named columns of a frame (used to state that the
`fillna(0)` before binning is already applied by fit and transform). -/
def zeroFillSrc (srcs : List String) (x : Frame) : Frame :=
  x.map (fun p => if p.1 ∈ srcs then (p.1, p.2.map zfCell) else p)

/-!
## NumAndNumImputer / NumAndCatImputer

Fitted state: the column pairs, the per-source-column discretizer state,
and `impute_value_dict` keyed by the concatenated string
`src_col + "_" + dest_col`. The two classes differ only in the statistic
(median vs mode); their `transform` bodies are identical, so they share
`numApplyPairs`. At transform time the binned key columns are computed once
from the incoming dataset (the source builds `binned_x` before the loop),
while missingness of the destination is re-read from the current dataset at
every assignment.
-/

structure NumAndNumImputer where
  column_pairs : List (String × String)
  specs : List (String × BinSpec)
  impute_value_dict : List (String × List (Val × Val))
deriving DecidableEq

structure NumAndCatImputer where
  column_pairs : List (String × String)
  specs : List (String × BinSpec)
  impute_value_dict : List (String × List (Val × Val))
deriving DecidableEq

/-- Fitted discretizer state of one source column (first entry; repeated
source columns fit to identical specs). -/
def specOf (specs : List (String × BinSpec)) (s : String) : BinSpec :=
  ((specs.find? (fun p => decide (p.1 = s))).map Prod.snd).getD .constant

/-- Zero-filled numeric view of a column (`x[col].fillna(0)`). -/
def filledQ (col : List Cell) : List Q :=
  col.map (fun c => Val.asQ (c.getD (Val.num (Q.ofInt 0))))

/-- Shared fit of the two binned-source imputers. -/
def numFit (stat : List Val → Option Val) (pairs : List (String × String))
    (nb : ℕ) (strategy : String) (x : Frame) :
    List (String × BinSpec) × List (String × List (Val × Val)) :=
  let specs := pairs.map (fun sd => (sd.1, fitBinSpec strategy nb (filledQ (getCol x sd.1))))
  let dict := pairs.foldl (fun d sd =>
    dictInsert d (sd.1 ++ "_" ++ sd.2)
      (groupStat stat (numRows (binnedCol (specOf specs sd.1) (getCol x sd.1)) (getCol x sd.2))))
    []
  (specs, dict)

def NumAndNumImputer.fit (pairs : List (String × String)) (nb : ℕ) (strategy : String)
    (x : Frame) : NumAndNumImputer :=
  let sd := numFit medianStat pairs nb strategy x
  ⟨pairs, sd.1, sd.2⟩

def NumAndCatImputer.fit (pairs : List (String × String)) (nb : ℕ) (strategy : String)
    (x : Frame) : NumAndCatImputer :=
  let sd := numFit modeStat pairs nb strategy x
  ⟨pairs, sd.1, sd.2⟩

/-- One pair of the transform loop: every table entry is a masked
assignment against the snapshot key column. -/
def numPairStep (keys : List Val) (tbl : List (Val × Val)) (d : String) (x : Frame) : Frame :=
  tbl.foldl (fun x kv =>
    setCol x d (fillWhere kv.2 (maskN keys kv.1) (getCol x d))) x

/-- The transform loop over the column pairs; `binned` is the snapshot of
the binned source columns taken at entry. -/
def numApplyPairs (binned : String → List Val) (dict : List (String × List (Val × Val)))
    (ps : List (String × String)) (x : Frame) : Frame :=
  ps.foldl (fun x sd =>
    numPairStep (binned sd.1) ((dictGet dict (sd.1 ++ "_" ++ sd.2)).getD []) sd.2 x) x

def NumAndNumImputer.transform (st : NumAndNumImputer) (x : Frame) : Frame :=
  numApplyPairs (fun s => binnedCol (specOf st.specs s) (getCol x s))
    st.impute_value_dict st.column_pairs x

def NumAndCatImputer.transform (st : NumAndCatImputer) (x : Frame) : Frame :=
  numApplyPairs (fun s => binnedCol (specOf st.specs s) (getCol x s))
    st.impute_value_dict st.column_pairs x

/-!
## CatAndNumImputer / CatAndCatImputer

Raw categorical source columns; the mask of every assignment is re-read
from the current dataset (`x[[src]].iloc[:, 0] == src_val` inside the
loop), which matters only when a pair's source column is also some pair's
destination. The two classes differ only in the statistic; the `transform`
bodies are identical, so they share `catApplyPairs`.
-/

structure CatAndNumImputer where
  column_pairs : List (String × String)
  impute_value_dict : List (String × List (Val × Val))
deriving DecidableEq

structure CatAndCatImputer where
  column_pairs : List (String × String)
  impute_value_dict : List (String × List (Val × Val))
deriving DecidableEq

/-- Shared fit of the two raw-source imputers. -/
def catFit (stat : List Val → Option Val) (pairs : List (String × String)) (x : Frame) :
    List (String × List (Val × Val)) :=
  pairs.foldl (fun d sd =>
    dictInsert d (sd.1 ++ "_" ++ sd.2)
      (groupStat stat (catRows (getCol x sd.1) (getCol x sd.2)))) []

def CatAndNumImputer.fit (pairs : List (String × String)) (x : Frame) : CatAndNumImputer :=
  ⟨pairs, catFit medianStat pairs x⟩

def CatAndCatImputer.fit (pairs : List (String × String)) (x : Frame) : CatAndCatImputer :=
  ⟨pairs, catFit modeStat pairs x⟩

/-- One pair of the transform loop; the mask re-reads the source column of
the current frame at every entry. -/
def catPairStep (s d : String) (tbl : List (Val × Val)) (x : Frame) : Frame :=
  tbl.foldl (fun x kv =>
    setCol x d (fillWhere kv.2 (maskC (getCol x s) kv.1) (getCol x d))) x

def catApplyPairs (dict : List (String × List (Val × Val)))
    (ps : List (String × String)) (x : Frame) : Frame :=
  ps.foldl (fun x sd =>
    catPairStep sd.1 sd.2 ((dictGet dict (sd.1 ++ "_" ++ sd.2)).getD []) x) x

def CatAndNumImputer.transform (st : CatAndNumImputer) (x : Frame) : Frame :=
  catApplyPairs st.impute_value_dict st.column_pairs x

def CatAndCatImputer.transform (st : CatAndCatImputer) (x : Frame) : Frame :=
  catApplyPairs st.impute_value_dict st.column_pairs x

/-!
## MissingImputer

`fit` resolves each configured column to a scalar: mean / median / mode of
the non-missing values when the strategy is one of those three strings,
otherwise the strategy value itself as a constant. Reading a column that is
absent from the dataset raises (KeyError), as does the mode of an all-
missing column (IndexError on `most_common(1)[0]`); both are modelled by
`none`. The mean or median of an all-missing column is NaN (warnings are
suppressed in the notebook), modelled as a `none` fill value, and
`fillna(NaN)` leaves cells missing.
-/

/-- `np.mean` over the non-missing values (NaN for an empty column). -/
def npMean (l : List Val) : Option Val :=
  let qs := l.filterMap Val.numOf
  match qs with
  | [] => none
  | _ :: _ => some (Val.num (Q.div (qs.foldl Q.add (Q.ofInt 0)) (Q.ofNat qs.length)))

/-- `np.median` over the non-missing values (NaN for an empty column). -/
def npMedian (l : List Val) : Option Val := (medianQ (l.filterMap Val.numOf)).map Val.num

/-- Fitted fill value of one column under one strategy; the outer `none`
is a raised error, the inner `Option` a NaN fill value. -/
def resolveStrategy (strat : Val) (cd : List Val) : Option (Option Val) :=
  if strat = Val.str "mean" then some (npMean cd)
  else if strat = Val.str "median" then some (npMedian cd)
  else if strat = Val.str "mode" then (firstMode cd).map some
  else some (some strat)

/-- `MissingImputer.fit`: resolve every configured column in order;
`none` models the raise. -/
def MissingImputer.fit (strategies : List (String × Val)) (x : Frame) :
    Option (List (String × Option Val)) :=
  strategies.foldlM (fun acc cs =>
    match colOf x cs.1 with
    | none => none
    | some col =>
      (resolveStrategy cs.2 (col.filterMap id)).map (fun v => dictInsert acc cs.1 v)) []

/-- `x[col].fillna(v)` cell by cell; a NaN fill value leaves the cell
missing. -/
def fillnaCell (v : Option Val) (c : Cell) : Cell :=
  match c with
  | none => v
  | some w => some w

/-- `MissingImputer.transform` over the fitted fill values. -/
def MissingImputer.transform (ivs : List (String × Option Val)) (x : Frame) : Frame :=
  ivs.foldl (fun x cv => setCol x cv.1 ((getCol x cv.1).map (fillnaCell cv.2))) x

/-!
## OutlierHandler

The strategy of a column is a method tag, an optional literal bounds pair,
and a fill value, mirroring the positional Python lists
`['quantile', [lo, hi], fv]`, `['values', [lo, hi], fv]` and
`['iqr', fv]`. `fit` dispatches on the tag: "quantile" and "values" are
checked explicitly, everything else — including an unresolvable tag —
falls into the `else` branch and is treated as IQR. `transform` applies,
for each column, two sequential masked assignments: first the lower-bound
mask, then the upper-bound mask over the already updated values; a NaN
compares false, so missing cells are untouched.
-/

structure OutStrat where
  method : String
  bounds : List Q
  fill : String
deriving DecidableEq

structure OutlierHandler where
  strategies : List (String × OutStrat)
  outlier_bounds : List (String × (Q × Q))
  fill_values : List (String × String)
deriving DecidableEq

/-- Numeric view of a column for quantile computation (pandas `quantile`
skips missing values). -/
def colQ (x : Frame) (c : String) : List Q :=
  (getCol x c).filterMap (fun cell => cell.bind Val.numOf)

/-- Lower and upper bound from the two requested quantiles. -/
def findQuantileBounds (xs : List Q) (lo hi : Q) : Q × Q :=
  (percentileQ xs lo, percentileQ xs hi)

/-- Lower and upper bound from the IQR rule. -/
def findIqrBounds (xs : List Q) : Q × Q :=
  let q1 := percentileQ xs (mkQ 1 4)
  let q3 := percentileQ xs (mkQ 3 4)
  let iqr := Q.sub q3 q1
  (Q.sub q1 (Q.mul (mkQ 3 2) iqr), Q.add q3 (Q.mul (mkQ 3 2) iqr))

def OutlierHandler.fit (strategies : List (String × OutStrat)) (x : Frame) : OutlierHandler :=
  strategies.foldl (fun st cs =>
    if cs.2.method = "quantile" then
      { st with
        outlier_bounds := dictInsert st.outlier_bounds cs.1
          (findQuantileBounds (colQ x cs.1) (cs.2.bounds.getD 0 (Q.ofInt 0))
            (cs.2.bounds.getD 1 (Q.ofInt 0)))
        fill_values := dictInsert st.fill_values cs.1 cs.2.fill }
    else if cs.2.method = "values" then
      { st with
        outlier_bounds := dictInsert st.outlier_bounds cs.1
          (cs.2.bounds.getD 0 (Q.ofInt 0), cs.2.bounds.getD 1 (Q.ofInt 0))
        fill_values := dictInsert st.fill_values cs.1 cs.2.fill }
    else
      { st with
        outlier_bounds := dictInsert st.outlier_bounds cs.1 (findIqrBounds (colQ x cs.1))
        fill_values := dictInsert st.fill_values cs.1 cs.2.fill })
    ⟨strategies, [], []⟩

/-- `x[col] < bound` for one cell; false on missing or non-numeric. -/
def cellLtB (c : Cell) (b : Q) : Bool :=
  match c with
  | some (Val.num q) => Q.blt q b
  | _ => false

/-- `x[col] > bound` for one cell. -/
def cellGtB (c : Cell) (b : Q) : Bool :=
  match c with
  | some (Val.num q) => Q.blt b q
  | _ => false

/-- The two sequential masked assignments of `transform` on one column;
the upper-bound mask is evaluated on the result of the lower-bound
assignment, as in the source. -/
def procCol (lb ub : Q) (fv : String) (col : List Cell) : List Cell :=
  if fv = "na" then
    (col.map (fun c => if cellLtB c lb then none else c)).map
      (fun c => if cellGtB c ub then none else c)
  else
    (col.map (fun c => if cellLtB c lb then some (Val.num lb) else c)).map
      (fun c => if cellGtB c ub then some (Val.num ub) else c)

def OutlierHandler.transform (st : OutlierHandler) (x : Frame) : Frame :=
  st.strategies.foldl (fun x cs =>
    setCol x cs.1 (procCol ((dictGet st.outlier_bounds cs.1).getD (Q.ofInt 0, Q.ofInt 0)).1
      ((dictGet st.outlier_bounds cs.1).getD (Q.ofInt 0, Q.ofInt 0)).2
      ((dictGet st.fill_values cs.1).getD "") (getCol x cs.1))) x

/-!
## Concrete data used by the witness and counterexample theorems
-/

/-- A numeric cell from an integer literal. -/
def cellQ (n : ℤ) : Cell := some (Val.num (Q.ofInt n))

/-- A categorical cell from a string literal. -/
def cellS (s : String) : Cell := some (Val.str s)

/-- The example frame of the OutlierHandler notebook:
`{'a': [1,2,100,1000], 'b': [-100,45,200,2000], 'c': [540,10,59,2]}`. -/
def frameOut : Frame :=
  [("a", [cellQ 1, cellQ 2, cellQ 100, cellQ 1000]),
   ("b", [cellQ (-100), cellQ 45, cellQ 200, cellQ 2000]),
   ("c", [cellQ 540, cellQ 10, cellQ 59, cellQ 2])]

/-- The notebook's outlier configuration. -/
def ohNotebook : OutlierHandler :=
  OutlierHandler.fit
    [("a", ⟨"quantile", [mkQ 1 5, mkQ 4 5], "na"⟩),
     ("b", ⟨"values", [Q.ofInt 0, Q.ofInt 200], "clip"⟩),
     ("c", ⟨"iqr", [], "clip"⟩)] frameOut

/-- Fit data for the numeric-to-numeric claims: a constant source, a
two-bin source, and a shared destination. -/
def frameNNfit : Frame :=
  [("s1", [cellQ 10, cellQ 10, cellQ 10, cellQ 10]),
   ("s2", [cellQ 0, cellQ 0, cellQ 10, cellQ 10]),
   ("d",  [cellQ 1, cellQ 3, cellQ 100, cellQ 200])]

/-- Transform data with one row whose destination is missing. -/
def frameNNt : Frame :=
  [("s1", [cellQ 10]), ("s2", [cellQ 0]), ("d", [(none : Cell)])]

/-- The two-pair imputer sharing destination `d` (for the C1
counterexample). -/
def impSharedDest : NumAndNumImputer :=
  NumAndNumImputer.fit [("s1", "d"), ("s2", "d")] 2 "uniform" frameNNfit

/-- A single-pair imputer on the same data (for the C1 witness). -/
def impSingle : NumAndNumImputer :=
  NumAndNumImputer.fit [("s2", "d")] 2 "uniform" frameNNfit

/-- Chained pairs: the destination of the first pair is the source of the
second (for the C4 counterexample). -/
def frameChain : Frame :=
  [("a", [cellQ 5, cellQ 5, cellQ 5]),
   ("b", [none, cellQ 20, cellQ 30]),
   ("c", [none, cellQ 2, cellQ 4])]

def impChain : NumAndNumImputer :=
  NumAndNumImputer.fit [("a", "b"), ("b", "c")] 2 "uniform" frameChain

/-- Two pairs whose concatenated dictionary keys collide:
`("a_b", "c")` and `("a", "b_c")` both map to `"a_b_c"`. -/
def frameKeyfit : Frame :=
  [("a_b", [cellS "p", cellS "q"]),
   ("c",   [cellQ 1, cellQ 2]),
   ("a",   [cellS "x", cellS "x"]),
   ("b_c", [cellQ 10, cellQ 20])]

def frameKeyt : Frame :=
  [("a_b", [cellS "x"]), ("c", [(none : Cell)]),
   ("a", [cellS "x"]), ("b_c", [(none : Cell)])]

def impCollide : CatAndNumImputer :=
  CatAndNumImputer.fit [("a_b", "c"), ("a", "b_c")] frameKeyfit

/-- Frame with a frequency tie in the destination values of the single
group (for the C5 witness). -/
def frameTie : Frame :=
  [("s", [cellS "g", cellS "g", cellS "g", cellS "g"]),
   ("d", [cellS "a", cellS "b", cellS "b", cellS "a"])]

/-- Frame with a singleton source category whose only destination value is
missing (the documented city_171 example, for the C6 witness). -/
def frameSingleton : Frame :=
  [("city", [cellS "c171", cellS "u", cellS "u"]),
   ("g", [none, cellS "m", none])]

def impSingleton : CatAndCatImputer :=
  CatAndCatImputer.fit [("city", "g")] frameSingleton

/-!
## Lemma layer: order facts about `Q`
-/

theorem Q.den_pos (a : Q) : 0 < a.den := by
  simp only [Q.den]
  omega

theorem Q.blt_irrefl (a : Q) : Q.blt a a = false := by
  simp [Q.blt]

theorem Q.not_blt_of_ble {a b : Q} (h : Q.ble a b = true) : Q.blt b a = false := by
  simp only [Q.ble, decide_eq_true_eq] at h
  simp only [Q.blt, decide_eq_false_iff_not, not_lt]
  exact h

theorem Q.not_blt_of_blt {a b : Q} (h : Q.blt a b = true) : Q.blt b a = false := by
  simp only [Q.blt, decide_eq_true_eq] at h
  simp only [Q.blt, decide_eq_false_iff_not, not_lt]
  exact le_of_lt h

/-- If `lb ≤ ub < q` then not `q < lb` (fraction comparison transitivity,
using positivity of the denominators). -/
theorem Q.not_blt_of_ble_blt {lb ub q : Q} (h1 : Q.ble lb ub = true)
    (h2 : Q.blt ub q = true) : Q.blt q lb = false := by
  simp only [Q.ble, Q.blt, decide_eq_true_eq] at h1 h2
  simp only [Q.blt, decide_eq_false_iff_not, not_lt]
  nlinarith [Q.den_pos lb, Q.den_pos ub, Q.den_pos q,
    mul_le_mul_of_nonneg_right h1 (le_of_lt (Q.den_pos q)),
    mul_lt_mul_of_pos_right h2 (Q.den_pos lb)]

/-!
## Lemma layer: dict / frame access
-/

theorem dictGet_insert_same {β : Type} (d : List (String × β)) (k : String) (v : β) :
    dictGet (dictInsert d k v) k = some v := by
  unfold dictInsert
  by_cases h : d.any (fun p => decide (p.1 = k)) = true
  · simp only [h, if_true]
    induction d with
    | nil => simp at h
    | cons p t ih =>
      by_cases hp : p.1 = k
      · simp [dictGet, hp]
      · simp only [List.any_cons, Bool.or_eq_true, decide_eq_true_eq] at h
        rcases h with h | h
        · exact absurd h hp
        · simpa [dictGet, hp] using ih h
  · simp only [h, if_false]
    simp only [Bool.not_eq_true] at h
    induction d with
    | nil => simp [dictGet]
    | cons p t ih =>
      simp only [List.any_cons, Bool.or_eq_false_iff] at h
      have hp : ¬ (p.1 = k) := by simpa using h.1
      simpa [dictGet, hp] using ih h.2

theorem dictGet_insert_ne {β : Type} (d : List (String × β)) (k c : String) (v : β)
    (h : k ≠ c) : dictGet (dictInsert d k v) c = dictGet d c := by
  unfold dictInsert
  by_cases ha : d.any (fun p => decide (p.1 = k)) = true
  · simp only [ha, if_true, dictGet, List.find?_map]
    have hpf : ((fun p : String × β => decide (p.1 = c)) ∘
        (fun p => if p.1 = k then (k, v) else p)) = (fun p => decide (p.1 = c)) := by
      funext q
      by_cases hq : q.1 = k
      · simp [hq, h]
      · simp [hq]
    rw [hpf]
    cases hf : d.find? (fun p => decide (p.1 = c)) with
    | none => simp
    | some r =>
      have hr : r.1 = c := by simpa using List.find?_some hf
      have hrk : ¬ (r.1 = k) := by
        rw [hr]
        exact fun hh => h hh.symm
      simp [hrk]
  · rw [if_neg ha]
    simp only [dictGet, List.find?_append]
    have hnone : List.find? (fun p : String × β => decide (p.1 = c)) [(k, v)] = none := by
      simp [h]
    rw [hnone]
    simp

theorem getCol_setCol_same (x : Frame) (c : String) (v : List Cell) :
    getCol (setCol x c v) c = v := by
  simp [getCol, colOf, setCol, dictGet_insert_same]

theorem getCol_setCol_ne (x : Frame) (c d : String) (v : List Cell) (h : c ≠ d) :
    getCol (setCol x c v) d = getCol x d := by
  simp [getCol, colOf, setCol, dictGet_insert_ne _ _ _ _ h]

theorem dictGet_of_mem {β : Type} {d : List (String × β)}
    (hn : (d.map Prod.fst).Nodup) {p : String × β} (hp : p ∈ d) :
    dictGet d p.1 = some p.2 := by
  induction d with
  | nil => simp at hp
  | cons q t ih =>
    rcases List.mem_cons.mp hp with he | ht
    · subst he
      simp [dictGet]
    · rw [List.map_cons] at hn
      have hq : ¬ (q.1 = p.1) := by
        intro hh
        have h1 : p.1 ∈ t.map Prod.fst := List.mem_map.mpr ⟨p, ht, rfl⟩
        have h2 : q.1 ∉ t.map Prod.fst := (List.nodup_cons.mp hn).1
        rw [hh] at h2
        exact h2 h1
      have ht2 : (t.map Prod.fst).Nodup := (List.nodup_cons.mp hn).2
      simpa [dictGet, hq] using ih ht2 ht

theorem dictInsert_eq_self {β : Type} {d : List (String × β)} {k : String} {v : β}
    (hn : (d.map Prod.fst).Nodup) (hg : dictGet d k = some v) :
    dictInsert d k v = d := by
  have hmem : ∃ p ∈ d, p.1 = k ∧ p.2 = v := by
    unfold dictGet at hg
    cases hf : d.find? (fun p => decide (p.1 = k)) with
    | none => rw [hf] at hg; simp at hg
    | some r =>
      rw [hf] at hg
      simp only [Option.map_some'] at hg
      exact ⟨r, List.mem_of_find?_eq_some hf, by simpa using List.find?_some hf,
        by simpa using hg⟩
  rcases hmem with ⟨p, hp, hpk, hpv⟩
  have ha : d.any (fun p => decide (p.1 = k)) = true := by
    simp only [List.any_eq_true, decide_eq_true_eq]
    exact ⟨p, hp, hpk⟩
  unfold dictInsert
  rw [if_pos ha]
  have : ∀ q ∈ d, (if q.1 = k then (k, v) else q) = q := by
    intro q hq
    by_cases hqk : q.1 = k
    · rw [if_pos hqk]
      have : dictGet d q.1 = some q.2 := dictGet_of_mem hn hq
      rw [hqk, hg] at this
      have hv : v = q.2 := by simpa using this
      rw [hv, ← hqk]
    · rw [if_neg hqk]
  calc d.map (fun q => if q.1 = k then (k, v) else q) = d.map id := List.map_congr_left this
    _ = d := List.map_id d

theorem names_dictInsert_of_mem {β : Type} (d : List (String × β)) (k : String) (v : β)
    (hm : k ∈ d.map Prod.fst) :
    (dictInsert d k v).map Prod.fst = d.map Prod.fst := by
  have ha : d.any (fun p => decide (p.1 = k)) = true := by
    simp only [List.any_eq_true, decide_eq_true_eq]
    rcases List.mem_map.mp hm with ⟨p, hp, hpk⟩
    exact ⟨p, hp, hpk⟩
  unfold dictInsert
  rw [if_pos ha, List.map_map]
  apply List.map_congr_left
  intro q _
  by_cases hq : q.1 = k
  · simp [hq]
  · simp [hq]

theorem names_dictInsert_of_not_mem {β : Type} (d : List (String × β)) (k : String) (v : β)
    (hm : k ∉ d.map Prod.fst) :
    (dictInsert d k v).map Prod.fst = d.map Prod.fst ++ [k] := by
  have ha : d.any (fun p => decide (p.1 = k)) = false := by
    simp only [List.any_eq_false, decide_eq_true_eq]
    intro p hp hpk
    exact hm (List.mem_map.mpr ⟨p, hp, hpk⟩)
  unfold dictInsert
  rw [if_neg (by simp [ha])]
  simp

theorem nodup_names_dictInsert {β : Type} (d : List (String × β)) (k : String) (v : β)
    (hn : (d.map Prod.fst).Nodup) :
    ((dictInsert d k v).map Prod.fst).Nodup := by
  by_cases hm : k ∈ d.map Prod.fst
  · rw [names_dictInsert_of_mem d k v hm]
    exact hn
  · rw [names_dictInsert_of_not_mem d k v hm]
    simp [List.nodup_append, hn, hm]

theorem mem_names_dictInsert {β : Type} (d : List (String × β)) (k c : String) (v : β)
    (hc : c ∈ d.map Prod.fst) : c ∈ (dictInsert d k v).map Prod.fst := by
  by_cases hm : k ∈ d.map Prod.fst
  · rw [names_dictInsert_of_mem d k v hm]
    exact hc
  · rw [names_dictInsert_of_not_mem d k v hm]
    exact List.mem_append_left _ hc

/-- A present column is its own lookup, so re-assigning it is the identity
(needs unique column names, which `setCol` preserves). -/
theorem setCol_getCol_self {x : Frame} {c : String}
    (hn : (names x).Nodup) (hc : colOf x c ≠ none) :
    setCol x c (getCol x c) = x := by
  cases hf : colOf x c with
  | none => exact absurd hf hc
  | some col =>
    have h1 : getCol x c = col := by simp [getCol, hf]
    rw [h1]
    exact dictInsert_eq_self hn hf

/-!
## Lemma layer: masked fills
-/

theorem fillWhere_get? (v : Val) (bs : List Bool) (cs : List Cell) (i : ℕ) :
    (fillWhere v bs cs).get? i =
      (cs.get? i).map (fun c => if bs.getD i false ∧ c = none then some v else c) := by
  induction bs generalizing cs i with
  | nil =>
    simp only [fillWhere, List.getD]
    cases cs.get? i <;> simp
  | cons b bs ih =>
    cases cs with
    | nil => simp [fillWhere]
    | cons c cs =>
      cases i with
      | zero => simp [fillWhere]
      | succ n => simpa [fillWhere] using ih cs n

theorem fillWhere_length (v : Val) (bs : List Bool) (cs : List Cell) :
    (fillWhere v bs cs).length = cs.length := by
  induction bs generalizing cs with
  | nil => rfl
  | cons b bs ih =>
    cases cs with
    | nil => rfl
    | cons c cs => simpa [fillWhere] using ih cs

theorem fillWhere_some (v : Val) (bs : List Bool) (cs : List Cell) (i : ℕ) (w : Val)
    (h : cs.get? i = some (some w)) :
    (fillWhere v bs cs).get? i = some (some w) := by
  rw [fillWhere_get?, h]
  simp

theorem fillWhere_none_iff (v : Val) (bs : List Bool) (cs : List Cell) (i : ℕ) :
    (fillWhere v bs cs).get? i = some none ↔
      cs.get? i = some none ∧ bs.getD i false = false := by
  rw [fillWhere_get?]
  cases hc : cs.get? i with
  | none => simp
  | some c =>
    rcases c with _ | w <;> cases hb : bs.getD i false <;> simp [hb]

theorem fillTbl_some (mask : Val → List Bool) (tbl : List (Val × Val)) (col : List Cell)
    (i : ℕ) (w : Val) (h : col.get? i = some (some w)) :
    (fillTbl mask tbl col).get? i = some (some w) := by
  induction tbl generalizing col with
  | nil => exact h
  | cons kv t ih =>
    simp only [fillTbl, List.foldl_cons] at *
    exact ih _ (fillWhere_some _ _ _ _ _ h)

theorem fillTbl_length (mask : Val → List Bool) (tbl : List (Val × Val)) (col : List Cell) :
    (fillTbl mask tbl col).length = col.length := by
  induction tbl generalizing col with
  | nil => rfl
  | cons kv t ih =>
    simp only [fillTbl, List.foldl_cons] at *
    rw [ih, fillWhere_length]

theorem fillTbl_none_iff (mask : Val → List Bool) (tbl : List (Val × Val)) (col : List Cell)
    (i : ℕ) :
    (fillTbl mask tbl col).get? i = some none ↔
      col.get? i = some none ∧ ∀ kv ∈ tbl, (mask kv.1).getD i false = false := by
  induction tbl generalizing col with
  | nil => simp [fillTbl]
  | cons kv t ih =>
    simp only [fillTbl, List.foldl_cons] at *
    rw [ih, fillWhere_none_iff]
    constructor
    · rintro ⟨⟨h1, h2⟩, h3⟩
      refine ⟨h1, ?_⟩
      intro u hu
      rcases List.mem_cons.mp hu with he | htl
      · rw [he]; exact h2
      · exact h3 u htl
    · rintro ⟨h1, h2⟩
      exact ⟨⟨h1, h2 kv (List.mem_cons_self kv t)⟩, fun u hu => h2 u (List.mem_cons_of_mem _ hu)⟩

theorem fillTbl_fills (mask : Val → List Bool) (tbl : List (Val × Val)) (col : List Cell)
    (i : ℕ) (k m : Val) (hc : col.get? i = some none) (hkm : (k, m) ∈ tbl)
    (hmask : (mask k).getD i false = true) (hnd : (tblKeys tbl).Nodup)
    (hex : ∀ u, u ∈ tblKeys tbl → u ≠ k → (mask u).getD i false = false) :
    (fillTbl mask tbl col).get? i = some (some m) := by
  induction tbl generalizing col with
  | nil => simp at hkm
  | cons kv t ih =>
    simp only [fillTbl, List.foldl_cons]
    rcases List.mem_cons.mp hkm with he | htl
    · subst he
      apply fillTbl_some
      rw [fillWhere_get?, hc]
      have hmask2 : (mask k)[i]?.getD false = true := by simpa using hmask
      simp [hmask2]
    · have hnd1 : (kv.1 :: tblKeys t).Nodup := by
        simpa only [tblKeys, List.map_cons] using hnd
      have hkk : kv.1 ≠ k := by
        intro hh
        have h1 : k ∈ tblKeys t := List.mem_map.mpr ⟨(k, m), htl, rfl⟩
        have h2 : kv.1 ∉ tblKeys t := (List.nodup_cons.mp hnd1).1
        rw [hh] at h2
        exact h2 h1
      have hstay : (fillWhere kv.2 (mask kv.1) col).get? i = some none := by
        rw [fillWhere_none_iff]
        refine ⟨hc, hex kv.1 ?_ hkk⟩
        simp only [tblKeys, List.map_cons]
        exact List.mem_cons_self _ _
      refine ih _ hstay htl (List.nodup_cons.mp hnd1).2 ?_
      intro u hu hun
      refine hex u ?_ hun
      simp only [tblKeys, List.map_cons]
      exact List.mem_cons_of_mem _ hu

/-!
## Lemma layer: the transform loops
-/

theorem getCol_numPairStep_same (keys : List Val) (tbl : List (Val × Val)) (d : String)
    (x : Frame) :
    getCol (numPairStep keys tbl d x) d = fillTbl (maskN keys) tbl (getCol x d) := by
  induction tbl generalizing x with
  | nil => rfl
  | cons kv t ih =>
    simp only [numPairStep, List.foldl_cons] at *
    rw [ih, getCol_setCol_same]
    rfl

theorem getCol_numPairStep_ne (keys : List Val) (tbl : List (Val × Val)) (d c : String)
    (x : Frame) (h : c ≠ d) :
    getCol (numPairStep keys tbl d x) c = getCol x c := by
  induction tbl generalizing x with
  | nil => rfl
  | cons kv t ih =>
    simp only [numPairStep, List.foldl_cons] at *
    rw [ih, getCol_setCol_ne _ _ _ _ (Ne.symm h)]

theorem getCol_catPairStep_same (s d : String) (tbl : List (Val × Val)) (x : Frame)
    (hsd : s ≠ d) :
    getCol (catPairStep s d tbl x) d = fillTbl (maskC (getCol x s)) tbl (getCol x d) := by
  induction tbl generalizing x with
  | nil => rfl
  | cons kv t ih =>
    simp only [catPairStep, List.foldl_cons] at *
    rw [ih, getCol_setCol_same, getCol_setCol_ne _ _ _ _ (fun h => hsd h.symm)]
    rfl

theorem getCol_catPairStep_ne (s d c : String) (tbl : List (Val × Val)) (x : Frame)
    (h : c ≠ d) :
    getCol (catPairStep s d tbl x) c = getCol x c := by
  induction tbl generalizing x with
  | nil => rfl
  | cons kv t ih =>
    simp only [catPairStep, List.foldl_cons] at *
    rw [ih, getCol_setCol_ne _ _ _ _ (Ne.symm h)]

theorem numApplyPairs_append (binned : String → List Val)
    (dict : List (String × List (Val × Val))) (pre post : List (String × String)) (x : Frame) :
    numApplyPairs binned dict (pre ++ post) x =
      numApplyPairs binned dict post (numApplyPairs binned dict pre x) := by
  simp [numApplyPairs, List.foldl_append]

theorem catApplyPairs_append (dict : List (String × List (Val × Val)))
    (pre post : List (String × String)) (x : Frame) :
    catApplyPairs dict (pre ++ post) x =
      catApplyPairs dict post (catApplyPairs dict pre x) := by
  simp [catApplyPairs, List.foldl_append]

theorem getCol_numApplyPairs_not_dest (binned : String → List Val)
    (dict : List (String × List (Val × Val))) (ps : List (String × String)) (x : Frame)
    (c : String) (h : c ∉ ps.map Prod.snd) :
    getCol (numApplyPairs binned dict ps x) c = getCol x c := by
  induction ps generalizing x with
  | nil => rfl
  | cons p t ih =>
    simp only [List.map_cons, List.mem_cons, not_or] at h
    simp only [numApplyPairs, List.foldl_cons] at *
    rw [ih _ h.2, getCol_numPairStep_ne _ _ _ _ _ h.1]

theorem getCol_catApplyPairs_not_dest (dict : List (String × List (Val × Val)))
    (ps : List (String × String)) (x : Frame) (c : String) (h : c ∉ ps.map Prod.snd) :
    getCol (catApplyPairs dict ps x) c = getCol x c := by
  induction ps generalizing x with
  | nil => rfl
  | cons p t ih =>
    simp only [List.map_cons, List.mem_cons, not_or] at h
    simp only [catApplyPairs, List.foldl_cons] at *
    rw [ih _ h.2, getCol_catPairStep_ne _ _ _ _ _ h.1]

theorem numApplyPairs_some (binned : String → List Val)
    (dict : List (String × List (Val × Val))) (ps : List (String × String)) (x : Frame)
    (d : String) (i : ℕ) (w : Val) (h : (getCol x d).get? i = some (some w)) :
    (getCol (numApplyPairs binned dict ps x) d).get? i = some (some w) := by
  induction ps generalizing x with
  | nil => exact h
  | cons p t ih =>
    simp only [numApplyPairs, List.foldl_cons] at *
    apply ih
    by_cases hd : d = p.2
    · subst hd
      rw [getCol_numPairStep_same]
      exact fillTbl_some _ _ _ _ _ h
    · rw [getCol_numPairStep_ne _ _ _ _ _ hd]
      exact h

theorem catPairStep_some (s d : String) (tbl : List (Val × Val)) (x : Frame)
    (c : String) (i : ℕ) (w : Val) (h : (getCol x c).get? i = some (some w)) :
    (getCol (catPairStep s d tbl x) c).get? i = some (some w) := by
  induction tbl generalizing x with
  | nil => exact h
  | cons kv t ih =>
    simp only [catPairStep, List.foldl_cons]
    apply ih
    by_cases hc : c = d
    · subst hc
      rw [getCol_setCol_same]
      exact fillWhere_some _ _ _ _ _ h
    · rw [getCol_setCol_ne _ _ _ _ (Ne.symm hc)]
      exact h

theorem catApplyPairs_some (dict : List (String × List (Val × Val)))
    (ps : List (String × String)) (x : Frame) (d : String) (i : ℕ) (w : Val)
    (h : (getCol x d).get? i = some (some w)) :
    (getCol (catApplyPairs dict ps x) d).get? i = some (some w) := by
  induction ps generalizing x with
  | nil => exact h
  | cons p t ih =>
    simp only [catApplyPairs, List.foldl_cons] at *
    exact ih _ (catPairStep_some _ _ _ _ _ _ _ h)

theorem getCol_numPairStep_length (keys : List Val) (tbl : List (Val × Val)) (d c : String)
    (x : Frame) :
    (getCol (numPairStep keys tbl d x) c).length = (getCol x c).length := by
  by_cases hd : c = d
  · subst hd
    rw [getCol_numPairStep_same, fillTbl_length]
  · rw [getCol_numPairStep_ne _ _ _ _ _ hd]

theorem getCol_numApplyPairs_length (binned : String → List Val)
    (dict : List (String × List (Val × Val))) (ps : List (String × String)) (x : Frame)
    (c : String) :
    (getCol (numApplyPairs binned dict ps x) c).length = (getCol x c).length := by
  induction ps generalizing x with
  | nil => rfl
  | cons p t ih =>
    simp only [numApplyPairs, List.foldl_cons] at *
    rw [ih, getCol_numPairStep_length]

/-- C3: transform applies the column pairs in input-declaration order (the
fold over `column_pairs`), and each assignment is guarded by re-reading
missingness from the current dataset, so a cell filled by an earlier pair
(a prefix of the pair list) is never overwritten by a later pair, and cells
non-missing in the input keep their original values — for the
numeric-source transform (`numApplyPairs`, shared by `NumAndNumImputer`
and `NumAndCatImputer`) and the raw-source transform (`catApplyPairs`,
shared by `CatAndNumImputer` and `CatAndCatImputer`). -/
theorem claim_C3_fill_order_guard :
    (∀ (st : NumAndNumImputer) (x : Frame) (d : String) (i : ℕ) (w : Val),
      (getCol x d).get? i = some (some w) →
      (getCol (st.transform x) d).get? i = some (some w)) ∧
    (∀ (binned : String → List Val) (dict : List (String × List (Val × Val)))
      (pre post : List (String × String)) (x : Frame) (d : String) (i : ℕ) (w : Val),
      (getCol (numApplyPairs binned dict pre x) d).get? i = some (some w) →
      (getCol (numApplyPairs binned dict (pre ++ post) x) d).get? i = some (some w)) ∧
    (∀ (st : CatAndNumImputer) (x : Frame) (d : String) (i : ℕ) (w : Val),
      (getCol x d).get? i = some (some w) →
      (getCol (st.transform x) d).get? i = some (some w)) ∧
    (∀ (dict : List (String × List (Val × Val))) (pre post : List (String × String))
      (x : Frame) (d : String) (i : ℕ) (w : Val),
      (getCol (catApplyPairs dict pre x) d).get? i = some (some w) →
      (getCol (catApplyPairs dict (pre ++ post) x) d).get? i = some (some w)) := by
  refine ⟨?_, ?_, ?_, ?_⟩
  · intro st x d i w h
    exact numApplyPairs_some _ _ _ _ _ _ _ h
  · intro binned dict pre post x d i w h
    rw [numApplyPairs_append]
    exact numApplyPairs_some _ _ _ _ _ _ _ h
  · intro st x d i w h
    exact catApplyPairs_some _ _ _ _ _ _ h
  · intro dict pre post x d i w h
    rw [catApplyPairs_append]
    exact catApplyPairs_some _ _ _ _ _ _ h

theorem claim_C3_witness :
    (getCol (impSingle.transform frameNNfit) "d").get? 0 = some (some (Val.num (Q.ofInt 1))) ∧
    (getCol (impCollide.transform frameKeyfit) "c").get? 0 = some (some (Val.num (Q.ofInt 1))) :=
  ⟨claim_C3_fill_order_guard.1 impSingle frameNNfit "d" 0 (Val.num (Q.ofInt 1)) (by decide),
   claim_C3_fill_order_guard.2.2.1 impCollide frameKeyfit "c" 0 (Val.num (Q.ofInt 1)) (by decide)⟩

/-!
## Lemma layer: masks, sorted keys, fitted tables
-/

theorem getD_eq_get? {α : Type} (l : List α) (i : ℕ) (d : α) :
    l.getD i d = (l.get? i).getD d := by
  induction l generalizing i with
  | nil => cases i <;> rfl
  | cons a t ih => cases i with
    | zero => rfl
    | succ n => exact ih n

theorem maskN_getD (keys : List Val) (u : Val) (i : ℕ) :
    (maskN keys u).getD i false = ((keys.get? i).map (fun x => decide (x = u))).getD false := by
  rw [maskN, getD_eq_get?, List.get?_map]

theorem maskN_getD_true (keys : List Val) (k : Val) (i : ℕ) (h : keys.get? i = some k) :
    (maskN keys k).getD i false = true := by
  rw [maskN_getD, h]
  simp

theorem maskN_getD_false (keys : List Val) (k u : Val) (i : ℕ) (h : keys.get? i = some k)
    (hu : u ≠ k) : (maskN keys u).getD i false = false := by
  rw [maskN_getD, h]
  simp
  exact fun hh => hu hh.symm

theorem maskC_getD (scol : List Cell) (u : Val) (i : ℕ) :
    (maskC scol u).getD i false =
      ((scol.get? i).map (fun x => decide (x = some u))).getD false := by
  rw [maskC, getD_eq_get?, List.get?_map]

theorem maskC_getD_true (scol : List Cell) (k : Val) (i : ℕ)
    (h : scol.get? i = some (some k)) : (maskC scol k).getD i false = true := by
  rw [maskC_getD, h]
  simp

theorem maskC_getD_false (scol : List Cell) (u : Val) (i : ℕ) (c : Cell)
    (h : scol.get? i = some c) (hu : c ≠ some u) :
    (maskC scol u).getD i false = false := by
  rw [maskC_getD, h]
  simpa using hu

theorem mem_insertKeyGo (a x : Val) (l : List Val) :
    x ∈ insertKey.insertKeyGo a l ↔ x = a ∨ x ∈ l := by
  induction l with
  | nil => simp [insertKey.insertKeyGo]
  | cons b t ih =>
    by_cases hb : Val.bleKey a b = true
    · simp [insertKey.insertKeyGo, hb]
    · simp only [insertKey.insertKeyGo, if_neg hb, List.mem_cons, ih]
      tauto

theorem mem_insertKey (a x : Val) (l : List Val) :
    x ∈ insertKey a l ↔ x = a ∨ x ∈ l := by
  unfold insertKey
  by_cases hm : a ∈ l
  · rw [if_pos hm]
    constructor
    · exact Or.inr
    · rintro (he | hx)
      · rwa [he]
      · exact hx
  · rw [if_neg hm]
    exact mem_insertKeyGo a x l

theorem nodup_insertKey (a : Val) (l : List Val) (hn : l.Nodup) :
    (insertKey a l).Nodup := by
  unfold insertKey
  by_cases hm : a ∈ l
  · rwa [if_pos hm]
  · rw [if_neg hm]
    induction l with
    | nil => simp [insertKey.insertKeyGo]
    | cons b t ih =>
      have hnb : b ∉ t := (List.nodup_cons.mp hn).1
      have hnt : t.Nodup := (List.nodup_cons.mp hn).2
      have hab : ¬ (a = b) := fun he => hm (he ▸ List.mem_cons_self b t)
      have hat : a ∉ t := fun ht => hm (List.mem_cons_of_mem b ht)
      by_cases hb : Val.bleKey a b = true
      · simp only [insertKey.insertKeyGo, if_pos hb]
        refine List.nodup_cons.mpr ⟨?_, hn⟩
        simp only [List.mem_cons]
        rintro (he | ht)
        · exact hab he
        · exact hat ht
      · simp only [insertKey.insertKeyGo, if_neg hb]
        refine List.nodup_cons.mpr ⟨?_, ih hnt hat⟩
        rw [mem_insertKeyGo]
        rintro (he | ht)
        · exact hm (he ▸ List.mem_cons_self b t)
        · exact hnb ht

theorem nodup_sortedKeys (ks : List Val) : (sortedKeys ks).Nodup := by
  have hgen : ∀ (l : List Val) (acc : List Val), acc.Nodup →
      (l.foldl (fun acc k => insertKey k acc) acc).Nodup := by
    intro l
    induction l with
    | nil => intro acc h; exact h
    | cons a t ih =>
      intro acc h
      exact ih _ (nodup_insertKey a acc h)
  exact hgen ks [] List.nodup_nil

theorem tblKeys_groupStat_nodup (stat : List Val → Option Val) (rows : List (Val × Val)) :
    (tblKeys (groupStat stat rows)).Nodup := by
  unfold groupStat tblKeys
  have h : ∀ (ks : List Val), ks.Nodup →
      ((ks.filterMap (fun k => (stat (groupVals rows k)).map (fun v => (k, v)))).map
        Prod.fst).Nodup := by
    intro ks
    induction ks with
    | nil => intro _; simp
    | cons k t ih =>
      intro hn
      have hkt : k ∉ t := (List.nodup_cons.mp hn).1
      have hnt : t.Nodup := (List.nodup_cons.mp hn).2
      simp only [List.filterMap_cons]
      cases hs : (stat (groupVals rows k)).map (fun v => (k, v)) with
      | none => exact ih hnt
      | some p =>
        have hp : p.1 = k := by
          cases hst : stat (groupVals rows k) with
          | none => rw [hst] at hs; simp at hs
          | some v =>
            rw [hst] at hs
            simp only [Option.map_some'] at hs
            rw [← Option.some.inj hs]
        simp only [List.map_cons]
        refine List.nodup_cons.mpr ⟨?_, ih hnt⟩
        rw [hp]
        intro hmem
        rcases List.mem_map.mp hmem with ⟨q, hq, hq1⟩
        rcases List.mem_filterMap.mp hq with ⟨u, hu, hu2⟩
        have hq1u : q.1 = u := by
          cases hst : stat (groupVals rows u) with
          | none => rw [hst] at hu2; simp at hu2
          | some v =>
            rw [hst] at hu2
            simp only [Option.map_some'] at hu2
            rw [← Option.some.inj hu2]
        rw [hq1u] at hq1
        rw [hq1] at hu
        exact hkt hu
  exact h _ (nodup_sortedKeys _)

/-- Values stored by a fold of `dictInsert` all satisfy an invariant of the
inserted values. -/
theorem dictGet_insert_prop {β : Type} {P : β → Prop} {d : List (String × β)}
    {k : String} {w : β} (hd : ∀ c v, dictGet d c = some v → P v) (hw : P w) :
    ∀ c v, dictGet (dictInsert d k w) c = some v → P v := by
  intro c v h
  by_cases hc : k = c
  · subst hc
    rw [dictGet_insert_same] at h
    cases h
    exact hw
  · rw [dictGet_insert_ne _ _ _ _ hc] at h
    exact hd c v h

theorem dict_fold_prop {β γ : Type} {P : β → Prop} (key : γ → String) (g : γ → β) :
    ∀ (l : List γ) (d : List (String × β)),
      (∀ c v, dictGet d c = some v → P v) → (∀ a ∈ l, P (g a)) →
      ∀ c v, dictGet (l.foldl (fun d a => dictInsert d (key a) (g a)) d) c = some v → P v := by
  intro l
  induction l with
  | nil => intro d hd _; exact hd
  | cons a t ih =>
    intro d hd hl
    simp only [List.foldl_cons]
    exact ih _ (dictGet_insert_prop hd (hl a (List.mem_cons_self a t)))
      (fun b hb => hl b (List.mem_cons_of_mem _ hb))

set_option maxHeartbeats 1600000 in
theorem numFit_dict_keys_nodup (stat : List Val → Option Val) (pairs : List (String × String))
    (nb : ℕ) (strategy : String) (x : Frame) (key : String) (tbl : List (Val × Val))
    (h : dictGet (numFit stat pairs nb strategy x).2 key = some tbl) :
    (tblKeys tbl).Nodup := by
  revert h
  show (dictGet (List.foldl (fun d sd => dictInsert d (sd.1 ++ "_" ++ sd.2)
      (groupStat stat (numRows (binnedCol (specOf
        (pairs.map (fun q => (q.1, fitBinSpec strategy nb (filledQ (getCol x q.1))))) sd.1)
        (getCol x sd.1)) (getCol x sd.2)))) [] pairs) key = some tbl) →
    (tblKeys tbl).Nodup
  intro h
  have gen : ∀ (l : List (String × String)) (d : List (String × List (Val × Val))),
      (∀ c v, dictGet d c = some v → (tblKeys v).Nodup) →
      ∀ c v, dictGet (List.foldl (fun d sd => dictInsert d (sd.1 ++ "_" ++ sd.2)
        (groupStat stat (numRows (binnedCol (specOf
          (pairs.map (fun q => (q.1, fitBinSpec strategy nb (filledQ (getCol x q.1))))) sd.1)
          (getCol x sd.1)) (getCol x sd.2)))) d l) c = some v → (tblKeys v).Nodup := by
    intro l
    induction l with
    | nil => intro d hd; exact hd
    | cons a t ih =>
      intro d hd
      simp only [List.foldl_cons]
      exact ih _ (dictGet_insert_prop hd (tblKeys_groupStat_nodup _ _))
  exact gen pairs [] (by intro c v hv; simp [dictGet] at hv) key tbl h

theorem catFit_dict_keys_nodup (stat : List Val → Option Val) (pairs : List (String × String))
    (x : Frame) (key : String) (tbl : List (Val × Val))
    (h : dictGet (catFit stat pairs x) key = some tbl) :
    (tblKeys tbl).Nodup := by
  simp only [catFit] at h
  have gen : ∀ (l : List (String × String)) (d : List (String × List (Val × Val))),
      (∀ c v, dictGet d c = some v → (tblKeys v).Nodup) →
      ∀ c v, dictGet (List.foldl (fun d sd => dictInsert d (sd.1 ++ "_" ++ sd.2)
        (groupStat stat (catRows (getCol x sd.1) (getCol x sd.2)))) d l) c = some v →
        (tblKeys v).Nodup := by
    intro l
    induction l with
    | nil => intro d hd; exact hd
    | cons a t ih =>
      intro d hd
      simp only [List.foldl_cons]
      exact ih _ (dictGet_insert_prop hd (tblKeys_groupStat_nodup _ _))
  exact gen pairs [] (by intro c v hv; simp [dictGet] at hv) key tbl h

/-- C1 counterexample: with two pairs sharing destination `d`, a cell that
was missing and whose bin group under the second pair is non-empty (fitted
median 2) ends up holding the first pair's median 103/2, not 2 — the claim
instance for the second pair fails. -/
theorem claim_C1_counterexample :
    (getCol frameNNt "d").get? 0 = some none ∧
    (binnedCol (specOf impSharedDest.specs "s2") (getCol frameNNt "s2")).get? 0 =
      some (Val.num (Q.ofNat 0)) ∧
    dictGet impSharedDest.impute_value_dict ("s2" ++ "_" ++ "d") =
      some [(Val.num (Q.ofNat 0), Val.num (Q.ofInt 2)),
            (Val.num (Q.ofNat 1), Val.num (Q.ofInt 150))] ∧
    ¬ ((getCol (impSharedDest.transform frameNNt) "d").get? 0 =
      some (some (Val.num (Q.ofInt 2)))) := by
  decide

/-- C1 (amended): after `transform(D)` of a fitted numeric-to-numeric
imputer, a destination cell that was missing in `D` and whose row's
source-column bin has a non-empty fitted group (an entry in the stored
table) is no longer missing; and when the destination column occurs in
exactly one column pair, the cell equals the fitted median stored for that
group. (When several pairs share the destination, the earliest applicable
pair wins, as the counterexample shows.) -/
theorem claim_C1_fill_not_missing_and_median (pairs : List (String × String)) (nb : ℕ)
    (strategy : String) (D0 D : Frame) (s d : String) (i : ℕ) (k m : Val)
    (tbl : List (Val × Val))
    (hp : (s, d) ∈ pairs)
    (htbl : dictGet (NumAndNumImputer.fit pairs nb strategy D0).impute_value_dict
      (s ++ "_" ++ d) = some tbl)
    (hkm : (k, m) ∈ tbl)
    (hkey : (binnedCol (specOf (NumAndNumImputer.fit pairs nb strategy D0).specs s)
      (getCol D s)).get? i = some k)
    (hmiss : (getCol D d).get? i = some none) :
    (∃ w, (getCol ((NumAndNumImputer.fit pairs nb strategy D0).transform D) d).get? i =
      some (some w)) ∧
    ((pairs.map Prod.snd).count d = 1 →
      (getCol ((NumAndNumImputer.fit pairs nb strategy D0).transform D) d).get? i =
        some (some m)) := by
  set F := NumAndNumImputer.fit pairs nb strategy D0 with hF
  have hnodup : (tblKeys tbl).Nodup :=
    numFit_dict_keys_nodup medianStat pairs nb strategy D0 _ _ htbl
  set bn := fun s' => binnedCol (specOf F.specs s') (getCol D s') with hbn
  have hkey2 : (bn s).get? i = some k := hkey
  rcases List.append_of_mem hp with ⟨pre, post, hsplit⟩
  have hcp : F.column_pairs = pairs := rfl
  have hTD : F.transform D = numApplyPairs bn F.impute_value_dict (pre ++ (s, d) :: post) D := by
    rw [show F.transform D = numApplyPairs bn F.impute_value_dict F.column_pairs D from rfl,
      hcp, ← hsplit]
  rw [numApplyPairs_append] at hTD
  have htblD : (dictGet F.impute_value_dict (s ++ "_" ++ d)).getD [] = tbl := by
    rw [htbl]
    rfl
  have hTD2 : F.transform D = numApplyPairs bn F.impute_value_dict post
      (numPairStep (bn s) ((dictGet F.impute_value_dict (s ++ "_" ++ d)).getD []) d
        (numApplyPairs bn F.impute_value_dict pre D)) := hTD
  rw [htblD] at hTD2
  set y := numApplyPairs bn F.impute_value_dict pre D with hy
  have hilen : i < (getCol D d).length := by
    by_contra hlt
    rw [List.get?_eq_none.mpr (Nat.le_of_not_lt hlt)] at hmiss
    exact Option.noConfusion hmiss
  have hylen : (getCol y d).length = (getCol D d).length :=
    getCol_numApplyPairs_length bn F.impute_value_dict pre D d
  have hfillstep : (getCol y d).get? i = some none →
      (getCol (numPairStep (bn s) tbl d y) d).get? i = some (some m) := by
    intro hc
    rw [getCol_numPairStep_same]
    exact fillTbl_fills _ _ _ _ _ _ hc hkm (maskN_getD_true _ _ _ hkey2) hnodup
      (fun u _ hun => maskN_getD_false _ _ _ _ hkey2 hun)
  constructor
  · cases hc : (getCol y d).get? i with
    | none =>
      exfalso
      have := List.get?_eq_none.mp hc
      omega
    | some c =>
      cases c with
      | none =>
        refine ⟨m, ?_⟩
        rw [hTD2]
        exact numApplyPairs_some _ _ _ _ _ _ _ (hfillstep hc)
      | some w =>
        refine ⟨w, ?_⟩
        rw [hTD2]
        apply numApplyPairs_some
        rw [getCol_numPairStep_same]
        exact fillTbl_some _ _ _ _ _ hc
  · intro hcount
    rw [hsplit] at hcount
    simp only [List.map_append, List.count_append, List.map_cons] at hcount
    rw [List.count_cons_self] at hcount
    have hzero : (pre.map Prod.snd).count d = 0 ∧ (post.map Prod.snd).count d = 0 := by
      omega
    have hdpre : d ∉ pre.map Prod.snd := List.count_eq_zero.mp hzero.1
    have hdpost : d ∉ post.map Prod.snd := List.count_eq_zero.mp hzero.2
    have hyd : getCol y d = getCol D d :=
      getCol_numApplyPairs_not_dest bn F.impute_value_dict pre D d hdpre
    rw [hTD2, getCol_numApplyPairs_not_dest bn F.impute_value_dict post _ d hdpost]
    apply hfillstep
    rw [hyd]
    exact hmiss

/-- C1 witness: a single-pair imputer on concrete data fills the missing
cell with the fitted median of its bin group. -/
theorem claim_C1_witness :
    (∃ w, (getCol (impSingle.transform frameNNt) "d").get? 0 = some (some w)) ∧
    (getCol (impSingle.transform frameNNt) "d").get? 0 = some (some (Val.num (Q.ofInt 2))) := by
  have h := claim_C1_fill_not_missing_and_median [("s2", "d")] 2 "uniform" frameNNfit frameNNt
    "s2" "d" 0 (Val.num (Q.ofNat 0)) (Val.num (Q.ofInt 2))
    [(Val.num (Q.ofNat 0), Val.num (Q.ofInt 2)), (Val.num (Q.ofNat 1), Val.num (Q.ofInt 150))]
    (by decide) (by decide) (by decide) (by decide) (by decide)
  exact ⟨h.1, h.2 (by decide)⟩

/-!
## Lemma layer: unmatched rows stay missing
-/

theorem maskC_not_match (scol : List Cell) (u : Val) (i : ℕ)
    (h : ¬ (scol.get? i = some (some u))) :
    (maskC scol u).getD i false = false := by
  rw [maskC_getD]
  cases hc : scol.get? i with
  | none => simp
  | some c =>
    simp only [Option.map_some', Option.getD_some, decide_eq_false_iff_not]
    intro he
    rw [he] at hc
    exact h hc

theorem mem_sortedKeys (ks : List Val) (x : Val) (h : x ∈ sortedKeys ks) : x ∈ ks := by
  have hgen : ∀ (l acc : List Val), x ∈ l.foldl (fun acc k => insertKey k acc) acc →
      x ∈ acc ∨ x ∈ l := by
    intro l
    induction l with
    | nil => intro acc hx; exact Or.inl hx
    | cons a t ih =>
      intro acc hx
      simp only [List.foldl_cons] at hx
      rcases ih _ hx with hacc | ht
      · rcases (mem_insertKey a x acc).mp hacc with he | hacc2
        · exact Or.inr (he ▸ List.mem_cons_self a t)
        · exact Or.inl hacc2
      · exact Or.inr (List.mem_cons_of_mem a ht)
  rcases hgen ks [] h with hx | hx
  · simp at hx
  · exact hx

theorem mem_groupStat_keys (stat : List Val → Option Val) (rows : List (Val × Val))
    (k v : Val) (h : (k, v) ∈ groupStat stat rows) : k ∈ rows.map Prod.fst := by
  unfold groupStat at h
  rcases List.mem_filterMap.mp h with ⟨u, hu, hu2⟩
  have huk : u = k := by
    cases hst : stat (groupVals rows u) with
    | none => rw [hst] at hu2; simp at hu2
    | some w =>
      rw [hst] at hu2
      simp only [Option.map_some'] at hu2
      exact congrArg Prod.fst (Option.some.inj hu2)
  rw [← huk]
  exact mem_sortedKeys _ _ hu

theorem not_mem_catRows_keys (scol dcol : List Cell) (c : Val)
    (hall : ∀ p ∈ scol.zip dcol, p.1 = some c → p.2 = none) :
    c ∉ (catRows scol dcol).map Prod.fst := by
  intro hmem
  rcases List.mem_map.mp hmem with ⟨p, hp, hp1⟩
  rcases List.mem_filterMap.mp hp with ⟨q, hq, hq2⟩
  rcases q with ⟨qs, qd⟩
  cases qs with
  | none => simp [catRows] at hq2
  | some sv =>
    cases qd with
    | none => simp at hq2
    | some dv =>
      simp only [Option.some.injEq] at hq2
      have hsv : sv = c := by
        have := congrArg Prod.fst hq2
        simp at this
        rw [this, hp1]
      have := hall (some sv, some dv) hq (by rw [hsv])
      exact Option.noConfusion this

/-- If every pair targeting column `d` fails to match row `i` of the
current source columns (and no source column is rewritten because no
source is a destination), the missing cell stays missing. -/
theorem catApplyPairs_none (dict : List (String × List (Val × Val)))
    (ps : List (String × String)) (x : Frame) (d : String) (i : ℕ)
    (hsrc : ∀ q ∈ ps, q.1 ∉ ps.map Prod.snd)
    (hmiss : (getCol x d).get? i = some none)
    (hblocked : ∀ q ∈ ps, q.2 = d →
      ∀ kv ∈ (dictGet dict (q.1 ++ "_" ++ q.2)).getD [],
        ¬ ((getCol x q.1).get? i = some (some kv.1))) :
    (getCol (catApplyPairs dict ps x) d).get? i = some none := by
  induction ps generalizing x with
  | nil => exact hmiss
  | cons q t ih =>
    simp only [catApplyPairs, List.foldl_cons]
    have hq1t : q.1 ∉ (q :: t).map Prod.snd := hsrc q (List.mem_cons_self q t)
    have hstep : (getCol (catPairStep q.1 q.2 ((dictGet dict (q.1 ++ "_" ++ q.2)).getD []) x) d).get?
        i = some none := by
      by_cases hqd : q.2 = d
      · have hq1d : q.1 ≠ q.2 := by
          intro he
          apply hq1t
          rw [he]
          exact List.mem_map.mpr ⟨q, List.mem_cons_self q t, rfl⟩
        rw [← hqd] at hmiss ⊢
        rw [getCol_catPairStep_same _ _ _ _ hq1d, fillTbl_none_iff]
        refine ⟨hmiss, ?_⟩
        intro kv hkv
        exact maskC_not_match _ _ _ (hblocked q (List.mem_cons_self q t) hqd kv hkv)
      · rw [getCol_catPairStep_ne _ _ _ _ _ (fun he => hqd he.symm)]
        exact hmiss
    apply ih
    · intro q2 hq2
      intro hmem
      exact hsrc q2 (List.mem_cons_of_mem q hq2) (by
        simp only [List.map_cons, List.mem_cons]
        exact Or.inr hmem)
    · exact hstep
    · intro q2 hq2 hq2d kv hkv
      have hq2src : q2.1 ≠ q.2 := by
        intro he
        apply hsrc q2 (List.mem_cons_of_mem q hq2)
        rw [he]
        exact List.mem_map.mpr ⟨q, List.mem_cons_self q t, rfl⟩
      rw [getCol_catPairStep_ne _ _ _ _ _ hq2src]
      exact hblocked q2 (List.mem_cons_of_mem q hq2) hq2d kv hkv

/-- C6: a row whose source key is absent from the fitted table is left with
the missing marker, with no error (the transform is total); in particular,
when every fitted row of a source category has a missing destination value
(the singleton city_171 case), fit produces no table entry for that key,
and transform leaves the cell missing. The transform statement covers any
fitted imputer whose source columns are not also destination columns (so
the source keys read by the guard are those of the input), with every pair
targeting the cell's column unmatched at that row. -/
theorem claim_C6_absent_key_left_missing :
    (∀ (s d : String) (x : Frame) (c : Val) (tbl : List (Val × Val)),
      (∀ p ∈ (getCol x s).zip (getCol x d), p.1 = some c → p.2 = none) →
      dictGet (CatAndCatImputer.fit [(s, d)] x).impute_value_dict (s ++ "_" ++ d) = some tbl →
      ∀ m, (c, m) ∉ tbl) ∧
    (∀ (st : CatAndCatImputer) (x : Frame) (d : String) (i : ℕ),
      (∀ q ∈ st.column_pairs, q.1 ∉ st.column_pairs.map Prod.snd) →
      (getCol x d).get? i = some none →
      (∀ q ∈ st.column_pairs, q.2 = d →
        ∀ kv ∈ (dictGet st.impute_value_dict (q.1 ++ "_" ++ q.2)).getD [],
          ¬ ((getCol x q.1).get? i = some (some kv.1))) →
      (getCol (st.transform x) d).get? i = some none) := by
  constructor
  · intro s d x c tbl hall htbl m hmem
    have hd : (CatAndCatImputer.fit [(s, d)] x).impute_value_dict =
        dictInsert [] (s ++ "_" ++ d)
          (groupStat modeStat (catRows (getCol x s) (getCol x d))) := rfl
    rw [hd, dictGet_insert_same] at htbl
    have htbleq : tbl = groupStat modeStat (catRows (getCol x s) (getCol x d)) :=
      (Option.some.inj htbl).symm
    rw [htbleq] at hmem
    exact not_mem_catRows_keys _ _ _ hall (mem_groupStat_keys modeStat _ c m hmem)
  · intro st x d i hsrc hmiss hblocked
    exact catApplyPairs_none st.impute_value_dict st.column_pairs x d i hsrc hmiss hblocked

theorem claim_C6_witness :
    ((Val.str "c171", Val.str "m") ∉ ([(Val.str "u", Val.str "m")] : List (Val × Val))) ∧
    (getCol (impSingleton.transform frameSingleton) "g").get? 0 = some none := by
  constructor
  · exact claim_C6_absent_key_left_missing.1 "city" "g" frameSingleton (Val.str "c171")
      [(Val.str "u", Val.str "m")] (by decide) (by decide) (Val.str "m")
  · exact claim_C6_absent_key_left_missing.2 impSingleton frameSingleton "g" 0
      (by decide) (by decide) (by decide)

/-!
## Lemma layer: the mode statistic
-/

theorem pickMax_eq_none_iff (full m : List Val) : pickMax full m = none ↔ m = [] := by
  cases m with
  | nil => simp [pickMax]
  | cons a l =>
    simp only [pickMax]
    cases pickMax full l <;> simp <;> split <;> simp

theorem pickMax_spec (full m : List Val) :
    ∀ (a : Val), pickMax full m = some a →
    a ∈ m ∧ (∀ b ∈ m, full.count b ≤ full.count a) ∧
      ∃ pre post, m = pre ++ a :: post ∧ ∀ b ∈ pre, full.count b < full.count a := by
  induction m with
  | nil => intro a h; simp [pickMax] at h
  | cons c rest ih =>
    intro a h
    simp only [pickMax] at h
    cases hr : pickMax full rest with
    | none =>
      rw [hr] at h
      dsimp only at h
      have hac : a = c := (Option.some.inj h).symm
      subst hac
      have hrest : rest = [] := (pickMax_eq_none_iff full rest).mp hr
      subst hrest
      refine ⟨List.mem_cons_self _ _, ?_, [], [], rfl, by simp⟩
      intro b hb
      rcases List.mem_cons.mp hb with he | hm
      · rw [he]
      · simp at hm
    | some b =>
      rw [hr] at h
      dsimp only at h
      rcases ih b hr with ⟨hbmem, hble, pre, post, hsplit, hprelt⟩
      by_cases hcmp : full.count b > full.count c
      · rw [if_pos hcmp] at h
        have hab : a = b := (Option.some.inj h).symm
        subst hab
        refine ⟨List.mem_cons_of_mem _ hbmem, ?_, c :: pre, post, by rw [hsplit]; rfl, ?_⟩
        · intro u hu
          rcases List.mem_cons.mp hu with he | hm
          · rw [he]; exact le_of_lt hcmp
          · exact hble u hm
        · intro u hu
          rcases List.mem_cons.mp hu with he | hm
          · rw [he]; exact hcmp
          · exact hprelt u hm
      · rw [if_neg hcmp] at h
        have hac : a = c := (Option.some.inj h).symm
        subst hac
        refine ⟨List.mem_cons_self _ _, ?_, [], rest, rfl, by simp⟩
        intro u hu
        rcases List.mem_cons.mp hu with he | hm
        · rw [he]
        · exact le_trans (hble u hm) (Nat.le_of_not_lt hcmp)

theorem firstMode_spec (l : List Val) (a : Val) (h : firstMode l = some a) :
    a ∈ l ∧ (∀ b ∈ l, l.count b ≤ l.count a) ∧
      ∃ pre post, l = pre ++ a :: post ∧ ∀ b ∈ pre, l.count b < l.count a :=
  pickMax_spec l l a h


theorem mem_groupStat_stat (stat : List Val → Option Val) (rows : List (Val × Val))
    (k v : Val) (h : (k, v) ∈ groupStat stat rows) :
    stat (groupVals rows k) = some v := by
  unfold groupStat at h
  rcases List.mem_filterMap.mp h with ⟨u, hu, hu2⟩
  cases hst : stat (groupVals rows u) with
  | none => rw [hst] at hu2; simp at hu2
  | some w =>
    rw [hst] at hu2
    simp only [Option.map_some'] at hu2
    have he := Option.some.inj hu2
    have hu1 : u = k := congrArg Prod.fst he
    have hw : w = v := congrArg Prod.snd he
    rw [← hu1, hst, hw]

/-- C5: a fitted mode statistic is the first-encountered value, in fit's
input row order, among the equally most frequent destination values of the
group: the stored value belongs to the group, no group value has a larger
count, and every value encountered before it in the group has a strictly
smaller count. Stated for a `CatAndCatImputer` group table and for the
scalar "mode" strategy of `MissingImputer`. -/
theorem claim_C5_mode_tie_break :
    (∀ (s d : String) (x : Frame) (tbl : List (Val × Val)) (k v : Val),
      dictGet (CatAndCatImputer.fit [(s, d)] x).impute_value_dict (s ++ "_" ++ d) = some tbl →
      (k, v) ∈ tbl →
      v ∈ groupVals (catRows (getCol x s) (getCol x d)) k ∧
      (∀ b ∈ groupVals (catRows (getCol x s) (getCol x d)) k,
        (groupVals (catRows (getCol x s) (getCol x d)) k).count b ≤
          (groupVals (catRows (getCol x s) (getCol x d)) k).count v) ∧
      (∃ pre post, groupVals (catRows (getCol x s) (getCol x d)) k = pre ++ v :: post ∧
        ∀ b ∈ pre, (groupVals (catRows (getCol x s) (getCol x d)) k).count b <
          (groupVals (catRows (getCol x s) (getCol x d)) k).count v)) ∧
    (∀ (c : String) (x : Frame) (ivs : List (String × Option Val)) (v : Val),
      MissingImputer.fit [(c, Val.str "mode")] x = some ivs →
      dictGet ivs c = some (some v) →
      v ∈ (getCol x c).filterMap id ∧
      (∀ b ∈ (getCol x c).filterMap id,
        ((getCol x c).filterMap id).count b ≤ ((getCol x c).filterMap id).count v) ∧
      (∃ pre post, (getCol x c).filterMap id = pre ++ v :: post ∧
        ∀ b ∈ pre, ((getCol x c).filterMap id).count b <
          ((getCol x c).filterMap id).count v)) := by
  constructor
  · intro s d x tbl k v htbl hkv
    have hd : (CatAndCatImputer.fit [(s, d)] x).impute_value_dict =
        dictInsert [] (s ++ "_" ++ d)
          (groupStat modeStat (catRows (getCol x s) (getCol x d))) := rfl
    rw [hd, dictGet_insert_same] at htbl
    have htbleq : tbl = groupStat modeStat (catRows (getCol x s) (getCol x d)) :=
      (Option.some.inj htbl).symm
    rw [htbleq] at hkv
    have hfm : modeStat (groupVals (catRows (getCol x s) (getCol x d)) k) = some v :=
      mem_groupStat_stat _ _ _ _ hkv
    exact firstMode_spec _ _ hfm
  · intro c x ivs v hfit hget
    cases hcol : colOf x c with
    | none =>
      rw [show MissingImputer.fit [(c, Val.str "mode")] x = none from by
        simp [MissingImputer.fit, hcol]] at hfit
      exact absurd hfit (by simp)
    | some col =>
      have hcd : getCol x c = col := by simp [getCol, hcol]
      have hres : MissingImputer.fit [(c, Val.str "mode")] x =
          ((firstMode (col.filterMap id)).map some).map (fun w => dictInsert [] c w) := by
        simp [MissingImputer.fit, hcol, resolveStrategy]
      rw [hres] at hfit
      cases hfm : firstMode (col.filterMap id) with
      | none =>
        rw [hfm] at hfit
        simp at hfit
      | some v0 =>
        rw [hfm] at hfit
        simp only [Option.map_some'] at hfit
        have hivs : ivs = dictInsert [] c (some v0) := (Option.some.inj hfit).symm
        rw [hivs, dictGet_insert_same] at hget
        have hv : v0 = v := by simpa using hget
        rw [hcd]
        rw [← hv]
        exact firstMode_spec _ _ hfm

theorem claim_C5_witness :
    (Val.str "a" ∈ groupVals (catRows (getCol frameTie "s") (getCol frameTie "d"))
      (Val.str "g") ∧
      (∀ b ∈ groupVals (catRows (getCol frameTie "s") (getCol frameTie "d")) (Val.str "g"),
        (groupVals (catRows (getCol frameTie "s") (getCol frameTie "d"))
          (Val.str "g")).count b ≤
        (groupVals (catRows (getCol frameTie "s") (getCol frameTie "d"))
          (Val.str "g")).count (Val.str "a")) ∧
      (∃ pre post, groupVals (catRows (getCol frameTie "s") (getCol frameTie "d"))
          (Val.str "g") = pre ++ Val.str "a" :: post ∧
        ∀ b ∈ pre, (groupVals (catRows (getCol frameTie "s") (getCol frameTie "d"))
          (Val.str "g")).count b <
          (groupVals (catRows (getCol frameTie "s") (getCol frameTie "d"))
            (Val.str "g")).count (Val.str "a"))) ∧
    (Val.str "a" ∈ (getCol frameTie "d").filterMap id ∧
      (∀ b ∈ (getCol frameTie "d").filterMap id,
        ((getCol frameTie "d").filterMap id).count b ≤
          ((getCol frameTie "d").filterMap id).count (Val.str "a")) ∧
      (∃ pre post, (getCol frameTie "d").filterMap id = pre ++ Val.str "a" :: post ∧
        ∀ b ∈ pre, ((getCol frameTie "d").filterMap id).count b <
          ((getCol frameTie "d").filterMap id).count (Val.str "a"))) :=
  ⟨claim_C5_mode_tie_break.1 "s" "d" frameTie [(Val.str "g", Val.str "a")]
      (Val.str "g") (Val.str "a") (by decide) (by decide),
   claim_C5_mode_tie_break.2 "d" frameTie [("d", some (Val.str "a"))] (Val.str "a")
      (by decide) (by decide)⟩

/-!
## Lemma layer: degenerate binning
-/

theorem foldl_min_const (l : List Q) (c : Q) (h : ∀ u ∈ l, u = c) :
    l.foldl (fun u v => if Q.ble u v then u else v) c = c := by
  induction l with
  | nil => rfl
  | cons b t ih =>
    have hb : b = c := h b (List.mem_cons_self _ _)
    simp only [List.foldl_cons, hb, ite_self]
    exact ih (fun u hu => h u (List.mem_cons_of_mem _ hu))

theorem foldl_max_const (l : List Q) (c : Q) (h : ∀ u ∈ l, u = c) :
    l.foldl (fun u v => if Q.ble u v then v else u) c = c := by
  induction l with
  | nil => rfl
  | cons b t ih =>
    have hb : b = c := h b (List.mem_cons_self _ _)
    simp only [List.foldl_cons, hb, ite_self]
    exact ih (fun u hu => h u (List.mem_cons_of_mem _ hu))

theorem fitBinSpec_const (strategy : String) (nb : ℕ) (vals : List Q) (c : Q)
    (h : ∀ u ∈ vals, u = c) : fitBinSpec strategy nb vals = .constant := by
  have hmm : Q.beq (listMinQ vals) (listMaxQ vals) = true := by
    cases vals with
    | nil => simp [listMinQ, listMaxQ, Q.beq]
    | cons a l =>
      have ha : a = c := h a (List.mem_cons_self _ _)
      have hl : ∀ u ∈ l, u = c := fun u hu => h u (List.mem_cons_of_mem _ hu)
      have h1 : listMinQ (a :: l) = c := by
        simp only [listMinQ, ha]
        exact foldl_min_const l c hl
      have h2 : listMaxQ (a :: l) = c := by
        simp only [listMaxQ, ha]
        exact foldl_max_const l c hl
      rw [h1, h2]
      simp [Q.beq]
  unfold fitBinSpec
  rw [if_pos hmm]

/-- C8: when all fitted values of a source column are identical, binning
fit takes the constant-column branch (no error is raised: the embedding is
total, mirroring sklearn's warning-only path with warnings suppressed),
and the subsequent bin application maps every value to bin 0. -/
theorem claim_C8_constant_column_bin_zero (strategy : String) (nb : ℕ) (vals : List Q)
    (c : Q) (h : ∀ u ∈ vals, u = c) :
    (∀ v, binOf (fitBinSpec strategy nb vals) v = 0) ∧
    (∀ (col : List Cell) (w : Val), w ∈ binnedCol (fitBinSpec strategy nb vals) col →
      w = Val.num (Q.ofNat 0)) := by
  have hconst : fitBinSpec strategy nb vals = .constant := fitBinSpec_const strategy nb vals c h
  rw [hconst]
  constructor
  · intro v
    rfl
  · intro col w hw
    rcases List.mem_map.mp hw with ⟨u, _, hu2⟩
    rw [← hu2]
    rfl

theorem claim_C8_witness :
    binOf (fitBinSpec "uniform" 5 [Q.ofInt 7, Q.ofInt 7, Q.ofInt 7]) (Q.ofInt 100) = 0 :=
  (claim_C8_constant_column_bin_zero "uniform" 5 [Q.ofInt 7, Q.ofInt 7, Q.ofInt 7]
    (Q.ofInt 7) (by decide)).1 (Q.ofInt 100)

/-- C10: the distinct pairs `("a_b", "c")` and `("a", "b_c")` concatenate
to the same dictionary key `"a_b_c"`; fit stores only one entry under that
key — the second pair's table (keyed by column `a`'s category, holding the
median of `b_c`), having silently replaced the first pair's table (which
is shown to differ); and transform, while processing the first pair,
matches the second pair's key against column `a_b` and writes the second
pair's statistic 15 into column `c`. -/
theorem claim_C10_key_collision :
    ("a_b" ++ "_" ++ "c" = "a" ++ "_" ++ "b_c") ∧
    impCollide.impute_value_dict = [("a_b_c", [(Val.str "x", Val.num (Q.ofInt 15))])] ∧
    groupStat medianStat (catRows (getCol frameKeyfit "a_b") (getCol frameKeyfit "c")) =
      [(Val.str "p", Val.num (Q.ofInt 1)), (Val.str "q", Val.num (Q.ofInt 2))] ∧
    ¬ (dictGet impCollide.impute_value_dict ("a_b" ++ "_" ++ "c") =
      some [(Val.str "p", Val.num (Q.ofInt 1)), (Val.str "q", Val.num (Q.ofInt 2))]) ∧
    (getCol (impCollide.transform frameKeyt) "c").get? 0 =
      some (some (Val.num (Q.ofInt 15))) := by
  decide

/-!
## Lemma layer: error handling of fit
-/

theorem missingFit_aux (x : Frame) : ∀ (l : List (String × Val))
    (acc : List (String × Option Val)),
    (∃ cs ∈ l, colOf x cs.1 = none) →
    List.foldlM (fun acc (cs : String × Val) =>
      match colOf x cs.1 with
      | none => none
      | some col => (resolveStrategy cs.2 (col.filterMap id)).map
          (fun v => dictInsert acc cs.1 v)) acc l = none := by
  intro l
  induction l with
  | nil =>
    intro acc hex
    rcases hex with ⟨cs, hcs, _⟩
    simp at hcs
  | cons a t ih =>
    intro acc hex
    rw [List.foldlM_cons]
    cases hca : colOf x a.1 with
    | none => simp [hca]
    | some col =>
      cases hres : (resolveStrategy a.2 (col.filterMap id)).map
          (fun v => dictInsert acc a.1 v) with
      | none => simp [hca, hres]
      | some b =>
        have hcs : ∃ cs ∈ t, colOf x cs.1 = none := by
          rcases hex with ⟨cs, hcsm, hnone⟩
          rcases List.mem_cons.mp hcsm with he | htl
          · subst he
            rw [hca] at hnone
            exact absurd hnone (by simp)
          · exact ⟨cs, htl, hnone⟩
        simp only [hca, hres, Option.some_bind]
        exact ih b hcs

/-- C2 counterexample: an unresolvable strategy tag does not raise at fit
entry; it falls into the `else` branch and is fitted exactly like "iqr"
(the bounds equal the IQR bounds, here -3865/8 and 6479/8 on the notebook
data), and transform then proceeds normally, clipping 1000 to 6479/8. -/
theorem claim_C2_counterexample :
    (OutlierHandler.fit [("a", ⟨"bogus", [], "clip"⟩)] frameOut).outlier_bounds =
      [("a", (mkQ (-3865) 8, mkQ 6479 8))] ∧
    (OutlierHandler.fit [("a", ⟨"bogus", [], "clip"⟩)] frameOut).outlier_bounds =
      (OutlierHandler.fit [("a", ⟨"iqr", [], "clip"⟩)] frameOut).outlier_bounds ∧
    (OutlierHandler.fit [("a", ⟨"bogus", [], "clip"⟩)] frameOut).fill_values =
      [("a", "clip")] ∧
    OutlierHandler.transform (OutlierHandler.fit [("a", ⟨"bogus", [], "clip"⟩)] frameOut)
      frameOut =
      [("a", [cellQ 1, cellQ 2, cellQ 100, some (Val.num (mkQ 6479 8))]),
       ("b", [cellQ (-100), cellQ 45, cellQ 200, cellQ 2000]),
       ("c", [cellQ 540, cellQ 10, cellQ 59, cellQ 2])] := by
  decide

/-- C2 (amended): an outlier-handler strategy whose method tag is neither
"quantile" nor "values" is silently treated as IQR by fit — the fitted
bounds are the IQR bounds and the fill value is stored, with no error —
while an imputer configuration naming a column absent from the dataset
schema does make `MissingImputer.fit` raise (modelled by `none`), wherever
the column occurs in the configuration. -/
theorem claim_C2_unknown_tag_iqr_missing_col_raises :
    (∀ (x : Frame) (c : String) (strat : OutStrat),
      ¬ (strat.method = "quantile") → ¬ (strat.method = "values") →
      (OutlierHandler.fit [(c, strat)] x).outlier_bounds = [(c, findIqrBounds (colQ x c))] ∧
      (OutlierHandler.fit [(c, strat)] x).fill_values = [(c, strat.fill)]) ∧
    (∀ (strategies : List (String × Val)) (x : Frame),
      (∃ cs ∈ strategies, colOf x cs.1 = none) →
      MissingImputer.fit strategies x = none) := by
  constructor
  · intro x c strat h1 h2
    unfold OutlierHandler.fit
    simp only [List.foldl_cons, List.foldl_nil]
    rw [if_neg h1, if_neg h2]
    constructor <;> rfl
  · intro strategies x hex
    exact missingFit_aux x strategies [] hex

theorem claim_C2_witness :
    ((OutlierHandler.fit [("b", ⟨"weird", [], "na"⟩)] frameOut).outlier_bounds =
      [("b", findIqrBounds (colQ frameOut "b"))] ∧
     (OutlierHandler.fit [("b", ⟨"weird", [], "na"⟩)] frameOut).fill_values =
      [("b", "na")]) ∧
    MissingImputer.fit [("nope", Val.str "mean")] frameOut = none :=
  ⟨claim_C2_unknown_tag_iqr_missing_col_raises.1 frameOut "b" ⟨"weird", [], "na"⟩
      (by decide) (by decide),
   claim_C2_unknown_tag_iqr_missing_col_raises.2 [("nope", Val.str "mean")] frameOut
      ⟨("nope", Val.str "mean"), List.mem_cons_self _ _, by decide⟩⟩

/-!
## Lemma layer: the outlier transform per column
-/

theorem OH_fold_ne (bounds : List (String × (Q × Q))) (fills : List (String × String))
    (l : List (String × OutStrat)) (x : Frame) (c : String) (h : c ∉ l.map Prod.fst) :
    getCol (l.foldl (fun x cs =>
      setCol x cs.1 (procCol ((dictGet bounds cs.1).getD (Q.ofInt 0, Q.ofInt 0)).1
        ((dictGet bounds cs.1).getD (Q.ofInt 0, Q.ofInt 0)).2
        ((dictGet fills cs.1).getD "") (getCol x cs.1))) x) c = getCol x c := by
  induction l generalizing x with
  | nil => rfl
  | cons a t ih =>
    simp only [List.map_cons, List.mem_cons, not_or] at h
    simp only [List.foldl_cons]
    rw [ih _ h.2, getCol_setCol_ne _ _ _ _ (fun he => h.1 he.symm)]

theorem OH_fold_in (bounds : List (String × (Q × Q))) (fills : List (String × String))
    (l : List (String × OutStrat)) (x : Frame) (c : String) (s : OutStrat)
    (hnd : (l.map Prod.fst).Nodup) (hmem : (c, s) ∈ l) :
    getCol (l.foldl (fun x cs =>
      setCol x cs.1 (procCol ((dictGet bounds cs.1).getD (Q.ofInt 0, Q.ofInt 0)).1
        ((dictGet bounds cs.1).getD (Q.ofInt 0, Q.ofInt 0)).2
        ((dictGet fills cs.1).getD "") (getCol x cs.1))) x) c =
    procCol ((dictGet bounds c).getD (Q.ofInt 0, Q.ofInt 0)).1
      ((dictGet bounds c).getD (Q.ofInt 0, Q.ofInt 0)).2
      ((dictGet fills c).getD "") (getCol x c) := by
  induction l generalizing x with
  | nil => simp at hmem
  | cons a t ih =>
    rw [List.map_cons] at hnd
    simp only [List.foldl_cons]
    by_cases hac : a.1 = c
    · have hnt : c ∉ t.map Prod.fst := by
        rw [← hac]
        exact (List.nodup_cons.mp hnd).1
      rw [OH_fold_ne _ _ _ _ _ hnt, hac, getCol_setCol_same]
    · rcases List.mem_cons.mp hmem with he | htl
      · rw [← he] at hac
        simp at hac
      · rw [ih _ (List.nodup_cons.mp hnd).2 htl,
          getCol_setCol_ne _ _ _ _ (fun he2 => hac he2)]

theorem procCol_get? (lb ub : Q) (fv : String) (col : List Cell) (i : ℕ) :
    (procCol lb ub fv col).get? i = (col.get? i).map (fun c =>
      if fv = "na" then
        (if cellGtB (if cellLtB c lb then none else c) ub then none
         else (if cellLtB c lb then none else c))
      else
        (if cellGtB (if cellLtB c lb then some (Val.num lb) else c) ub then some (Val.num ub)
         else (if cellLtB c lb then some (Val.num lb) else c))) := by
  unfold procCol
  by_cases hf : fv = "na"
  · rw [if_pos hf]
    rw [List.get?_map, List.get?_map]
    cases col.get? i <;> simp [hf]
  · rw [if_neg hf]
    rw [List.get?_map, List.get?_map]
    cases col.get? i <;> simp [hf]

theorem OH_fit_strategies (l : List (String × OutStrat)) (x : Frame) :
    (OutlierHandler.fit l x).strategies = l := by
  suffices hgen : ∀ (l2 : List (String × OutStrat)) (st : OutlierHandler),
      (List.foldl (fun st (cs : String × OutStrat) =>
        if cs.2.method = "quantile" then
          { st with
            outlier_bounds := dictInsert st.outlier_bounds cs.1
              (findQuantileBounds (colQ x cs.1) (cs.2.bounds.getD 0 (Q.ofInt 0))
                (cs.2.bounds.getD 1 (Q.ofInt 0)))
            fill_values := dictInsert st.fill_values cs.1 cs.2.fill }
        else if cs.2.method = "values" then
          { st with
            outlier_bounds := dictInsert st.outlier_bounds cs.1
              (cs.2.bounds.getD 0 (Q.ofInt 0), cs.2.bounds.getD 1 (Q.ofInt 0))
            fill_values := dictInsert st.fill_values cs.1 cs.2.fill }
        else
          { st with
            outlier_bounds := dictInsert st.outlier_bounds cs.1 (findIqrBounds (colQ x cs.1))
            fill_values := dictInsert st.fill_values cs.1 cs.2.fill }) st l2).strategies
        = st.strategies by
    exact hgen l ⟨l, [], []⟩
  intro l2
  induction l2 with
  | nil => intro st; rfl
  | cons a t ih =>
    intro st
    rw [List.foldl_cons, ih]
    split
    · rfl
    · split <;> rfl

/-- C7 counterexample: with literal bounds `[5, 2]` (lower above upper) and
disposition "clip", the value 1 lies strictly below the fitted lower bound
5 but is replaced by 2 — the upper bound — because the second masked
assignment re-clips the freshly written lower bound; the claim's
"replaced by the respective bound" fails. -/
theorem claim_C7_counterexample :
    dictGet (OutlierHandler.fit [("a", ⟨"values", [Q.ofInt 5, Q.ofInt 2], "clip"⟩)]
      [("a", [cellQ 1])]).outlier_bounds "a" = some (Q.ofInt 5, Q.ofInt 2) ∧
    Q.blt (Q.ofInt 1) (Q.ofInt 5) = true ∧
    (getCol (OutlierHandler.transform
      (OutlierHandler.fit [("a", ⟨"values", [Q.ofInt 5, Q.ofInt 2], "clip"⟩)]
        [("a", [cellQ 1])]) [("a", [cellQ 1])]) "a").get? 0 =
      some (some (Val.num (Q.ofInt 2))) ∧
    ¬ ((getCol (OutlierHandler.transform
      (OutlierHandler.fit [("a", ⟨"values", [Q.ofInt 5, Q.ofInt 2], "clip"⟩)]
        [("a", [cellQ 1])]) [("a", [cellQ 1])]) "a").get? 0 =
      some (some (Val.num (Q.ofInt 5)))) := by
  decide

/-- C7 (amended): for a fitted outlier handler (uniquely configured column
names, as a Python dict guarantees) and a configured column with fitted
bounds `(lb, ub)` and fill value `fv`, a numeric cell value strictly below
`lb` or strictly above `ub` becomes missing when `fv` is "na", and is
clipped to the respective bound when the disposition is clip — the latter
provided `lb ≤ ub` (as holds for ordered quantile and IQR bounds; the
counterexample shows clip misbehaves when the user's literal bounds are
inverted); values within the bounds (inclusive) are unchanged. -/
theorem claim_C7_bounds_behavior (strategies : List (String × OutStrat)) (x0 x : Frame)
    (c : String) (s : OutStrat) (i : ℕ) (q lb ub : Q) (fv : String)
    (hnd : (strategies.map Prod.fst).Nodup)
    (hmem : (c, s) ∈ strategies)
    (hb : dictGet (OutlierHandler.fit strategies x0).outlier_bounds c = some (lb, ub))
    (hf : dictGet (OutlierHandler.fit strategies x0).fill_values c = some fv)
    (hcell : (getCol x c).get? i = some (some (Val.num q))) :
    ((fv = "na") →
      ((Q.blt q lb = true ∨ Q.blt ub q = true →
        (getCol ((OutlierHandler.fit strategies x0).transform x) c).get? i = some none) ∧
       (Q.ble lb q = true → Q.ble q ub = true →
        (getCol ((OutlierHandler.fit strategies x0).transform x) c).get? i =
          some (some (Val.num q))))) ∧
    (¬ (fv = "na") → Q.ble lb ub = true →
      ((Q.blt q lb = true →
        (getCol ((OutlierHandler.fit strategies x0).transform x) c).get? i =
          some (some (Val.num lb))) ∧
       (Q.blt ub q = true →
        (getCol ((OutlierHandler.fit strategies x0).transform x) c).get? i =
          some (some (Val.num ub))) ∧
       (Q.ble lb q = true → Q.ble q ub = true →
        (getCol ((OutlierHandler.fit strategies x0).transform x) c).get? i =
          some (some (Val.num q))))) := by
  have hchar : getCol ((OutlierHandler.fit strategies x0).transform x) c =
      procCol lb ub fv (getCol x c) := by
    have ht : getCol ((OutlierHandler.fit strategies x0).transform x) c =
        procCol ((dictGet (OutlierHandler.fit strategies x0).outlier_bounds c).getD
            (Q.ofInt 0, Q.ofInt 0)).1
          ((dictGet (OutlierHandler.fit strategies x0).outlier_bounds c).getD
            (Q.ofInt 0, Q.ofInt 0)).2
          ((dictGet (OutlierHandler.fit strategies x0).fill_values c).getD "")
          (getCol x c) := by
      unfold OutlierHandler.transform
      rw [OH_fit_strategies]
      exact OH_fold_in _ _ strategies x c s hnd hmem
    rw [ht, hb, hf]
    rfl
  constructor
  · intro hfv
    constructor
    · intro hor
      rw [hchar, procCol_get?, hcell]
      simp only [Option.map_some']
      rcases hor with hlt | hgt
      · simp [hfv, cellLtB, cellGtB, hlt]
      · by_cases hlt : Q.blt q lb = true
        · simp [hfv, cellLtB, cellGtB, hlt]
        · simp [hfv, cellLtB, cellGtB, hlt, hgt]
    · intro hlb hub
      rw [hchar, procCol_get?, hcell]
      simp only [Option.map_some']
      simp [hfv, cellLtB, cellGtB, Q.not_blt_of_ble hlb, Q.not_blt_of_ble hub]
  · intro hfv hle
    refine ⟨?_, ?_, ?_⟩
    · intro hlt
      rw [hchar, procCol_get?, hcell]
      simp only [Option.map_some']
      simp [hfv, cellLtB, cellGtB, hlt, Q.not_blt_of_ble hle]
    · intro hgt
      rw [hchar, procCol_get?, hcell]
      simp only [Option.map_some']
      simp [hfv, cellLtB, cellGtB, hgt, Q.not_blt_of_ble_blt hle hgt]
    · intro hlb hub
      rw [hchar, procCol_get?, hcell]
      simp only [Option.map_some']
      simp [hfv, cellLtB, cellGtB, Q.not_blt_of_ble hlb, Q.not_blt_of_ble hub]

theorem claim_C7_witness :
    (getCol ((OutlierHandler.fit
      [("a", ⟨"quantile", [mkQ 1 5, mkQ 4 5], "na"⟩),
       ("b", ⟨"values", [Q.ofInt 0, Q.ofInt 200], "clip"⟩),
       ("c", ⟨"iqr", [], "clip"⟩)] frameOut).transform frameOut) "a").get? 0 = some none ∧
    (getCol ((OutlierHandler.fit
      [("a", ⟨"quantile", [mkQ 1 5, mkQ 4 5], "na"⟩),
       ("b", ⟨"values", [Q.ofInt 0, Q.ofInt 200], "clip"⟩),
       ("c", ⟨"iqr", [], "clip"⟩)] frameOut).transform frameOut) "b").get? 3 =
      some (some (Val.num (Q.ofInt 200))) := by
  constructor
  · exact ((claim_C7_bounds_behavior
      [("a", ⟨"quantile", [mkQ 1 5, mkQ 4 5], "na"⟩),
       ("b", ⟨"values", [Q.ofInt 0, Q.ofInt 200], "clip"⟩),
       ("c", ⟨"iqr", [], "clip"⟩)] frameOut frameOut "a"
      ⟨"quantile", [mkQ 1 5, mkQ 4 5], "na"⟩ 0 (Q.ofInt 1) (mkQ 8 5) (Q.ofInt 460) "na"
      (by decide) (by decide) (by decide) (by decide) (by decide)).1 rfl).1
      (Or.inl (by decide))
  · exact (((claim_C7_bounds_behavior
      [("a", ⟨"quantile", [mkQ 1 5, mkQ 4 5], "na"⟩),
       ("b", ⟨"values", [Q.ofInt 0, Q.ofInt 200], "clip"⟩),
       ("c", ⟨"iqr", [], "clip"⟩)] frameOut frameOut "b"
      ⟨"values", [Q.ofInt 0, Q.ofInt 200], "clip"⟩ 3 (Q.ofInt 2000) (Q.ofInt 0)
      (Q.ofInt 200) "clip"
      (by decide) (by decide) (by decide) (by decide) (by decide)).2 (by decide)
      (by decide)).2.1 (by decide))

/-!
## Lemma layer: idempotence of the transforms

A second `transform` pass is a no-op when every masked assignment of the
pass fixes the already-transformed frame. The guard of the group-statistic
imputers re-reads missingness, so a cell left missing by the first pass was
unmatched by every mask, and the masks of the second pass coincide with
those of the first as long as no destination column doubles as a source
column (the chained-pair counterexample below breaks exactly that).
-/

theorem foldl_fix {α β : Type} (f : α → β → α) (l : List β) (a : α)
    (h : ∀ b ∈ l, f a b = a) : l.foldl f a = a := by
  induction l with
  | nil => rfl
  | cons b t ih =>
    rw [List.foldl_cons, h b (List.mem_cons_self b t)]
    exact ih (fun c hc => h c (List.mem_cons_of_mem b hc))

theorem foldl_preserve {α β : Type} (P : α → Prop) (f : α → β → α) (l : List β) (a : α)
    (ha : P a) (h : ∀ x b, P x → P (f x b)) : P (l.foldl f a) := by
  induction l generalizing a with
  | nil => exact ha
  | cons b t ih => exact ih (f a b) (h a b ha)

theorem names_nodup_setCol (x : Frame) (c : String) (v : List Cell)
    (hn : (names x).Nodup) : (names (setCol x c v)).Nodup :=
  nodup_names_dictInsert x c v hn

theorem mem_names_setCol (x : Frame) (c d : String) (v : List Cell)
    (h : d ∈ names x) : d ∈ names (setCol x c v) :=
  mem_names_dictInsert x c d v h

theorem colOf_ne_none_of_mem {x : Frame} {c : String} (h : c ∈ names x) :
    colOf x c ≠ none := by
  intro hnone
  have h2 : c ∈ x.map Prod.fst := h
  rcases List.mem_map.mp h2 with ⟨p, hp, hpc⟩
  have hfind : x.find? (fun q => decide (q.1 = c)) = none := by
    cases hf : x.find? (fun q => decide (q.1 = c)) with
    | none => rfl
    | some q => simp [colOf, dictGet, hf] at hnone
  have h3 := List.find?_eq_none.mp hfind p hp
  simp [hpc] at h3

/-- A masked assignment whose mask avoids every still-missing cell is the
identity. -/
theorem fillWhere_id (v : Val) (bs : List Bool) (cs : List Cell)
    (h : ∀ i, cs.get? i = some none → bs.getD i false = false) :
    fillWhere v bs cs = cs := by
  induction bs generalizing cs with
  | nil => rfl
  | cons b bs ih =>
    cases cs with
    | nil => rfl
    | cons c cs =>
      have hb : (if b ∧ c = none then some v else c) = c := by
        cases c with
        | none =>
          have hb0 : b = false := h 0 rfl
          simp [hb0]
        | some w => simp
      show (if b ∧ c = none then some v else c) :: fillWhere v bs cs = c :: cs
      rw [hb]
      congr 1
      exact ih cs (fun i hi => h (i + 1) hi)

theorem numPairStep_names_nodup (keys : List Val) (tbl : List (Val × Val)) (d : String)
    (x : Frame) (hn : (names x).Nodup) : (names (numPairStep keys tbl d x)).Nodup := by
  have h := foldl_preserve (fun z : Frame => (names z).Nodup)
    (fun x kv => setCol x d (fillWhere kv.2 (maskN keys kv.1) (getCol x d))) tbl x hn
    (fun z kv hz => names_nodup_setCol z d _ hz)
  exact h

theorem numPairStep_mem_names (keys : List Val) (tbl : List (Val × Val)) (d : String)
    (x : Frame) (c : String) (hc : c ∈ names x) : c ∈ names (numPairStep keys tbl d x) := by
  have h := foldl_preserve (fun z : Frame => c ∈ names z)
    (fun x kv => setCol x d (fillWhere kv.2 (maskN keys kv.1) (getCol x d))) tbl x hc
    (fun z kv hz => mem_names_setCol z d c _ hz)
  exact h

theorem numApplyPairs_names_nodup (binned : String → List Val)
    (dict : List (String × List (Val × Val))) (ps : List (String × String)) (x : Frame)
    (hn : (names x).Nodup) : (names (numApplyPairs binned dict ps x)).Nodup := by
  have h := foldl_preserve (fun z : Frame => (names z).Nodup)
    (fun x sd => numPairStep (binned sd.1) ((dictGet dict (sd.1 ++ "_" ++ sd.2)).getD []) sd.2 x)
    ps x hn (fun z sd hz => numPairStep_names_nodup _ _ _ _ hz)
  exact h

theorem numApplyPairs_mem_names (binned : String → List Val)
    (dict : List (String × List (Val × Val))) (ps : List (String × String)) (x : Frame)
    (c : String) (hc : c ∈ names x) : c ∈ names (numApplyPairs binned dict ps x) := by
  have h := foldl_preserve (fun z : Frame => c ∈ names z)
    (fun x sd => numPairStep (binned sd.1) ((dictGet dict (sd.1 ++ "_" ++ sd.2)).getD []) sd.2 x)
    ps x hc (fun z sd hz => numPairStep_mem_names _ _ _ _ c hz)
  exact h

theorem catPairStep_names_nodup (s d : String) (tbl : List (Val × Val)) (x : Frame)
    (hn : (names x).Nodup) : (names (catPairStep s d tbl x)).Nodup := by
  have h := foldl_preserve (fun z : Frame => (names z).Nodup)
    (fun x kv => setCol x d (fillWhere kv.2 (maskC (getCol x s) kv.1) (getCol x d))) tbl x hn
    (fun z kv hz => names_nodup_setCol z d _ hz)
  exact h

theorem catPairStep_mem_names (s d : String) (tbl : List (Val × Val)) (x : Frame)
    (c : String) (hc : c ∈ names x) : c ∈ names (catPairStep s d tbl x) := by
  have h := foldl_preserve (fun z : Frame => c ∈ names z)
    (fun x kv => setCol x d (fillWhere kv.2 (maskC (getCol x s) kv.1) (getCol x d))) tbl x hc
    (fun z kv hz => mem_names_setCol z d c _ hz)
  exact h

theorem catApplyPairs_names_nodup (dict : List (String × List (Val × Val)))
    (ps : List (String × String)) (x : Frame) (hn : (names x).Nodup) :
    (names (catApplyPairs dict ps x)).Nodup := by
  have h := foldl_preserve (fun z : Frame => (names z).Nodup)
    (fun x sd => catPairStep sd.1 sd.2 ((dictGet dict (sd.1 ++ "_" ++ sd.2)).getD []) x)
    ps x hn (fun z sd hz => catPairStep_names_nodup _ _ _ _ hz)
  exact h

theorem catApplyPairs_mem_names (dict : List (String × List (Val × Val)))
    (ps : List (String × String)) (x : Frame) (c : String) (hc : c ∈ names x) :
    c ∈ names (catApplyPairs dict ps x) := by
  have h := foldl_preserve (fun z : Frame => c ∈ names z)
    (fun x sd => catPairStep sd.1 sd.2 ((dictGet dict (sd.1 ++ "_" ++ sd.2)).getD []) x)
    ps x hc (fun z sd hz => catPairStep_mem_names _ _ _ _ c hz)
  exact h

theorem MI_names_nodup (ivs : List (String × Option Val)) (x : Frame)
    (hn : (names x).Nodup) : (names (MissingImputer.transform ivs x)).Nodup := by
  have h := foldl_preserve (fun z : Frame => (names z).Nodup)
    (fun x cv => setCol x cv.1 ((getCol x cv.1).map (fillnaCell cv.2))) ivs x hn
    (fun z cv hz => names_nodup_setCol z cv.1 _ hz)
  exact h

theorem MI_mem_names (ivs : List (String × Option Val)) (x : Frame) (c : String)
    (hc : c ∈ names x) : c ∈ names (MissingImputer.transform ivs x) := by
  have h := foldl_preserve (fun z : Frame => c ∈ names z)
    (fun x cv => setCol x cv.1 ((getCol x cv.1).map (fillnaCell cv.2))) ivs x hc
    (fun z cv hz => mem_names_setCol z cv.1 c _ hz)
  exact h

theorem OH_names_nodup (st : OutlierHandler) (x : Frame) (hn : (names x).Nodup) :
    (names (st.transform x)).Nodup := by
  have h := foldl_preserve (fun z : Frame => (names z).Nodup)
    (fun y cs => setCol y cs.1
      (procCol ((dictGet st.outlier_bounds cs.1).getD (Q.ofInt 0, Q.ofInt 0)).1
        ((dictGet st.outlier_bounds cs.1).getD (Q.ofInt 0, Q.ofInt 0)).2
        ((dictGet st.fill_values cs.1).getD "") (getCol y cs.1)))
    st.strategies x hn (fun z cs hz => names_nodup_setCol z cs.1 _ hz)
  exact h

theorem OH_mem_names (st : OutlierHandler) (x : Frame) (c : String) (hc : c ∈ names x) :
    c ∈ names (st.transform x) := by
  have h := foldl_preserve (fun z : Frame => c ∈ names z)
    (fun y cs => setCol y cs.1
      (procCol ((dictGet st.outlier_bounds cs.1).getD (Q.ofInt 0, Q.ofInt 0)).1
        ((dictGet st.outlier_bounds cs.1).getD (Q.ofInt 0, Q.ofInt 0)).2
        ((dictGet st.fill_values cs.1).getD "") (getCol y cs.1)))
    st.strategies x hc (fun z cs hz => mem_names_setCol z cs.1 c _ hz)
  exact h

/-- A cell that is still missing after the binned-source transform was
missing before it and was matched by no mask of any pair targeting its
column (the masks are snapshots, independent of the evolving frame). -/
theorem numApplyPairs_none_mono (binned : String → List Val)
    (dict : List (String × List (Val × Val))) (ps : List (String × String)) :
    ∀ (x : Frame) (d : String) (i : ℕ),
      (getCol (numApplyPairs binned dict ps x) d).get? i = some none →
      (getCol x d).get? i = some none := by
  induction ps with
  | nil => intro x d i h; exact h
  | cons p t ih =>
    intro x d i h
    have hstep : numApplyPairs binned dict (p :: t) x =
        numApplyPairs binned dict t
          (numPairStep (binned p.1) ((dictGet dict (p.1 ++ "_" ++ p.2)).getD []) p.2 x) := rfl
    rw [hstep] at h
    have h1 := ih _ d i h
    by_cases hdp : d = p.2
    · subst hdp
      rw [getCol_numPairStep_same, fillTbl_none_iff] at h1
      exact h1.1
    · rwa [getCol_numPairStep_ne _ _ _ _ _ hdp] at h1

theorem numApplyPairs_none_masks (binned : String → List Val)
    (dict : List (String × List (Val × Val))) (ps : List (String × String)) :
    ∀ (x : Frame) (d : String) (i : ℕ),
      (getCol (numApplyPairs binned dict ps x) d).get? i = some none →
      ∀ sd ∈ ps, sd.2 = d →
        ∀ kv ∈ (dictGet dict (sd.1 ++ "_" ++ sd.2)).getD [],
          (maskN (binned sd.1) kv.1).getD i false = false := by
  induction ps with
  | nil => intro x d i _ sd hsd; exact absurd hsd (List.not_mem_nil sd)
  | cons p t ih =>
    intro x d i h sd hsd hd kv hkv
    have hstep : numApplyPairs binned dict (p :: t) x =
        numApplyPairs binned dict t
          (numPairStep (binned p.1) ((dictGet dict (p.1 ++ "_" ++ p.2)).getD []) p.2 x) := rfl
    rw [hstep] at h
    rcases List.mem_cons.mp hsd with he | htl
    · subst he
      have h1 : (getCol (numPairStep (binned sd.1)
          ((dictGet dict (sd.1 ++ "_" ++ sd.2)).getD []) sd.2 x) d).get? i = some none :=
        numApplyPairs_none_mono binned dict t _ d i h
      subst hd
      rw [getCol_numPairStep_same, fillTbl_none_iff] at h1
      exact h1.2 kv hkv
    · exact ih _ d i h sd htl hd kv hkv

theorem catPairStep_none_mono (s d : String) (tbl : List (Val × Val)) :
    ∀ (x : Frame) (c : String) (i : ℕ),
      (getCol (catPairStep s d tbl x) c).get? i = some none →
      (getCol x c).get? i = some none := by
  induction tbl with
  | nil => intro x c i h; exact h
  | cons kv t ih =>
    intro x c i h
    have hstep : catPairStep s d (kv :: t) x =
        catPairStep s d t
          (setCol x d (fillWhere kv.2 (maskC (getCol x s) kv.1) (getCol x d))) := rfl
    rw [hstep] at h
    have h1 := ih _ c i h
    by_cases hc : c = d
    · subst hc
      rw [getCol_setCol_same, fillWhere_none_iff] at h1
      exact h1.1
    · rwa [getCol_setCol_ne _ _ _ _ (fun he => hc he.symm)] at h1

theorem catApplyPairs_none_mono (dict : List (String × List (Val × Val)))
    (ps : List (String × String)) :
    ∀ (x : Frame) (d : String) (i : ℕ),
      (getCol (catApplyPairs dict ps x) d).get? i = some none →
      (getCol x d).get? i = some none := by
  induction ps with
  | nil => intro x d i h; exact h
  | cons p t ih =>
    intro x d i h
    have hstep : catApplyPairs dict (p :: t) x =
        catApplyPairs dict t
          (catPairStep p.1 p.2 ((dictGet dict (p.1 ++ "_" ++ p.2)).getD []) x) := rfl
    rw [hstep] at h
    exact catPairStep_none_mono p.1 p.2 _ x d i (ih _ d i h)

/-- A cell that is still missing after the raw-source transform was matched
by no mask of any pair targeting its column, with the masks taken against
the input frame — provided no destination column is also a source column,
so that the source columns the masks re-read never change. -/
theorem catApplyPairs_none_masks (dict : List (String × List (Val × Val)))
    (ps : List (String × String)) :
    ∀ (x : Frame) (d : String) (i : ℕ),
      (∀ sd ∈ ps, sd.1 ∉ ps.map Prod.snd) →
      (getCol (catApplyPairs dict ps x) d).get? i = some none →
      ∀ sd ∈ ps, sd.2 = d →
        ∀ kv ∈ (dictGet dict (sd.1 ++ "_" ++ sd.2)).getD [],
          (maskC (getCol x sd.1) kv.1).getD i false = false := by
  induction ps with
  | nil => intro x d i _ _ sd hsd; exact absurd hsd (List.not_mem_nil sd)
  | cons p t ih =>
    intro x d i hdisj h sd hsd hd kv hkv
    have hstep : catApplyPairs dict (p :: t) x =
        catApplyPairs dict t
          (catPairStep p.1 p.2 ((dictGet dict (p.1 ++ "_" ++ p.2)).getD []) x) := rfl
    rw [hstep] at h
    rcases List.mem_cons.mp hsd with he | htl
    · subst he
      have h1 : (getCol (catPairStep sd.1 sd.2
          ((dictGet dict (sd.1 ++ "_" ++ sd.2)).getD []) x) d).get? i = some none :=
        catApplyPairs_none_mono dict t _ d i h
      subst hd
      have hp12 : sd.1 ≠ sd.2 := by
        intro he2
        apply hdisj sd (List.mem_cons_self sd t)
        rw [he2]
        exact List.mem_map.mpr ⟨sd, List.mem_cons_self sd t, rfl⟩
      rw [getCol_catPairStep_same _ _ _ _ hp12, fillTbl_none_iff] at h1
      exact h1.2 kv hkv
    · have hne : sd.1 ≠ p.2 := by
        intro he2
        apply hdisj sd (List.mem_cons_of_mem p htl)
        rw [he2]
        exact List.mem_map.mpr ⟨p, List.mem_cons_self p t, rfl⟩
      have hdisj_t : ∀ q ∈ t, q.1 ∉ t.map Prod.snd := by
        intro q hq hmem2
        apply hdisj q (List.mem_cons_of_mem p hq)
        rw [List.map_cons]
        exact List.mem_cons_of_mem p.2 hmem2
      have h2 := ih _ d i hdisj_t h sd htl hd kv hkv
      rwa [getCol_catPairStep_ne p.1 p.2 sd.1 _ x hne] at h2

/-- `fillna` with a fixed fill value is idempotent cell by cell. -/
theorem fillnaCell_idem (v : Option Val) (c : Cell) :
    fillnaCell v (fillnaCell v c) = fillnaCell v c := by
  cases c with
  | some w => rfl
  | none =>
    cases v with
    | none => rfl
    | some w => rfl

theorem MI_getCol_not_key (ivs : List (String × Option Val)) :
    ∀ (x : Frame) (c : String), c ∉ ivs.map Prod.fst →
      getCol (MissingImputer.transform ivs x) c = getCol x c := by
  induction ivs with
  | nil => intro x c _; rfl
  | cons cv t ih =>
    intro x c h
    simp only [List.map_cons, List.mem_cons, not_or] at h
    have hstep : MissingImputer.transform (cv :: t) x =
        MissingImputer.transform t (setCol x cv.1 ((getCol x cv.1).map (fillnaCell cv.2))) := rfl
    rw [hstep, ih (setCol x cv.1 ((getCol x cv.1).map (fillnaCell cv.2))) c h.2,
      getCol_setCol_ne _ _ _ _ (fun he => h.1 he.symm)]

/-- The configured columns of the scalar-strategy transform: each is the
`fillna` image of the input column (column names of the configuration are
unique, as a Python dict guarantees). -/
theorem MI_getCol_key (ivs : List (String × Option Val)) :
    ∀ (x : Frame) (c : String) (v : Option Val),
      (ivs.map Prod.fst).Nodup → (c, v) ∈ ivs →
      getCol (MissingImputer.transform ivs x) c = (getCol x c).map (fillnaCell v) := by
  induction ivs with
  | nil => intro x c v _ hmem; exact absurd hmem (List.not_mem_nil _)
  | cons cv t ih =>
    intro x c v hnd hmem
    have hstep : MissingImputer.transform (cv :: t) x =
        MissingImputer.transform t (setCol x cv.1 ((getCol x cv.1).map (fillnaCell cv.2))) := rfl
    have hnd2 : (t.map Prod.fst).Nodup := by
      simp only [List.map_cons, List.nodup_cons] at hnd
      exact hnd.2
    have hhd : cv.1 ∉ t.map Prod.fst := by
      simp only [List.map_cons, List.nodup_cons] at hnd
      exact hnd.1
    rcases List.mem_cons.mp hmem with he | htl
    · subst he
      have hhd2 : c ∉ t.map Prod.fst := hhd
      rw [hstep, MI_getCol_not_key t _ c hhd2]
      show getCol (setCol x c ((getCol x c).map (fillnaCell v))) c = (getCol x c).map (fillnaCell v)
      rw [getCol_setCol_same]
    · have hcm : c ∈ t.map Prod.fst := List.mem_map.mpr ⟨(c, v), htl, rfl⟩
      have hne : cv.1 ≠ c := fun he2 => hhd (he2 ▸ hcm)
      rw [hstep, ih (setCol x cv.1 ((getCol x cv.1).map (fillnaCell cv.2))) c v hnd2 htl,
        getCol_setCol_ne _ _ _ _ hne]

/-- The scalar-strategy transform is idempotent: the first pass leaves a
cell missing only when the fill value itself is the missing marker, and
`fillna` is cellwise idempotent. -/
theorem MI_transform_idem (ivs : List (String × Option Val)) (x : Frame)
    (hn : (names x).Nodup) (hnd : (ivs.map Prod.fst).Nodup)
    (hcols : ∀ cv ∈ ivs, cv.1 ∈ names x) :
    MissingImputer.transform ivs (MissingImputer.transform ivs x) =
      MissingImputer.transform ivs x := by
  apply foldl_fix
  intro cv hcv
  show setCol (MissingImputer.transform ivs x) cv.1
      ((getCol (MissingImputer.transform ivs x) cv.1).map (fillnaCell cv.2)) =
      MissingImputer.transform ivs x
  have hcol : getCol (MissingImputer.transform ivs x) cv.1 =
      (getCol x cv.1).map (fillnaCell cv.2) :=
    MI_getCol_key ivs x cv.1 cv.2 hnd hcv
  have hmap : (getCol (MissingImputer.transform ivs x) cv.1).map (fillnaCell cv.2) =
      getCol (MissingImputer.transform ivs x) cv.1 := by
    rw [hcol, List.map_map]
    apply List.map_congr_left
    intro a _
    exact fillnaCell_idem cv.2 a
  rw [hmap]
  exact setCol_getCol_self (MI_names_nodup ivs x hn)
    (colOf_ne_none_of_mem (MI_mem_names ivs x cv.1 (hcols cv hcv)))

/-- The two sequential masked assignments of the outlier handler are
idempotent on a column, for both dispositions — even when the literal
bounds are inverted. -/
theorem procCol_idem (lb ub : Q) (fv : String) (col : List Cell) :
    procCol lb ub fv (procCol lb ub fv col) = procCol lb ub fv col := by
  by_cases hfv : fv = "na"
  · simp only [procCol, if_pos hfv, List.map_map]
    apply List.map_congr_left
    intro c _
    simp only [Function.comp_apply]
    rcases c with _ | v
    · simp [cellLtB, cellGtB]
    · rcases v with q | s
      · by_cases h1 : Q.blt q lb = true
        · simp [cellLtB, cellGtB, h1]
        · by_cases h2 : Q.blt ub q = true
          · simp [cellLtB, cellGtB, h1, h2]
          · simp [cellLtB, cellGtB, h1, h2]
      · simp [cellLtB, cellGtB]
  · simp only [procCol, if_neg hfv, List.map_map]
    apply List.map_congr_left
    intro c _
    simp only [Function.comp_apply]
    rcases c with _ | v
    · simp [cellLtB, cellGtB]
    · rcases v with q | s
      · by_cases h1 : Q.blt q lb = true
        · by_cases h3 : Q.blt ub lb = true
          · simp [cellLtB, cellGtB, h1, h3]
          · simp [cellLtB, cellGtB, h1, h3, Q.blt_irrefl]
        · by_cases h2 : Q.blt ub q = true
          · by_cases h3 : Q.blt ub lb = true
            · simp [cellLtB, cellGtB, h1, h2, h3]
            · simp [cellLtB, cellGtB, h1, h2, h3, Q.blt_irrefl]
          · simp [cellLtB, cellGtB, h1, h2]
      · simp [cellLtB, cellGtB]

/-- The outlier-handler transform is idempotent (unique configured column
names, as a Python dict guarantees; configured columns present in the
frame, as pandas requires). -/
theorem OH_transform_idem (st : OutlierHandler) (x : Frame)
    (hn : (names x).Nodup) (hnd : (st.strategies.map Prod.fst).Nodup)
    (hcols : ∀ cs ∈ st.strategies, cs.1 ∈ names x) :
    st.transform (st.transform x) = st.transform x := by
  apply foldl_fix
  intro cs hcs
  show setCol (st.transform x) cs.1
      (procCol ((dictGet st.outlier_bounds cs.1).getD (Q.ofInt 0, Q.ofInt 0)).1
        ((dictGet st.outlier_bounds cs.1).getD (Q.ofInt 0, Q.ofInt 0)).2
        ((dictGet st.fill_values cs.1).getD "") (getCol (st.transform x) cs.1)) =
      st.transform x
  have hy : getCol (st.transform x) cs.1 =
      procCol ((dictGet st.outlier_bounds cs.1).getD (Q.ofInt 0, Q.ofInt 0)).1
        ((dictGet st.outlier_bounds cs.1).getD (Q.ofInt 0, Q.ofInt 0)).2
        ((dictGet st.fill_values cs.1).getD "") (getCol x cs.1) :=
    OH_fold_in st.outlier_bounds st.fill_values st.strategies x cs.1 cs.2 hnd hcs
  rw [hy, procCol_idem, ← hy]
  exact setCol_getCol_self (OH_names_nodup st x hn)
    (colOf_ne_none_of_mem (OH_mem_names st x cs.1 (hcols cs hcs)))

/-- The binned-source transform is idempotent as long as the snapshot key
columns of the second pass coincide with those of the first (destination
columns present; unique frame column names). -/
theorem numApplyPairs_idem (binned binned2 : String → List Val)
    (dict : List (String × List (Val × Val))) (ps : List (String × String)) (x : Frame)
    (hn : (names x).Nodup)
    (hdest : ∀ sd ∈ ps, sd.2 ∈ names x)
    (hb2 : ∀ sd ∈ ps, binned2 sd.1 = binned sd.1) :
    numApplyPairs binned2 dict ps (numApplyPairs binned dict ps x) =
      numApplyPairs binned dict ps x := by
  apply foldl_fix
  intro sd hsd
  show numPairStep (binned2 sd.1) ((dictGet dict (sd.1 ++ "_" ++ sd.2)).getD []) sd.2
      (numApplyPairs binned dict ps x) = numApplyPairs binned dict ps x
  rw [hb2 sd hsd]
  apply foldl_fix
  intro kv hkv
  show setCol (numApplyPairs binned dict ps x) sd.2
      (fillWhere kv.2 (maskN (binned sd.1) kv.1)
        (getCol (numApplyPairs binned dict ps x) sd.2)) =
      numApplyPairs binned dict ps x
  rw [fillWhere_id kv.2 (maskN (binned sd.1) kv.1)
    (getCol (numApplyPairs binned dict ps x) sd.2)
    (fun i hi => numApplyPairs_none_masks binned dict ps x sd.2 i hi sd hsd rfl kv hkv)]
  exact setCol_getCol_self (numApplyPairs_names_nodup binned dict ps x hn)
    (colOf_ne_none_of_mem (numApplyPairs_mem_names binned dict ps x sd.2 (hdest sd hsd)))

/-- The raw-source transform is idempotent when no destination column is
also a source column (destination columns present; unique frame column
names). -/
theorem catApplyPairs_idem (dict : List (String × List (Val × Val)))
    (ps : List (String × String)) (x : Frame)
    (hn : (names x).Nodup)
    (hdest : ∀ sd ∈ ps, sd.2 ∈ names x)
    (hdisj : ∀ sd ∈ ps, sd.1 ∉ ps.map Prod.snd) :
    catApplyPairs dict ps (catApplyPairs dict ps x) = catApplyPairs dict ps x := by
  apply foldl_fix
  intro sd hsd
  show catPairStep sd.1 sd.2 ((dictGet dict (sd.1 ++ "_" ++ sd.2)).getD [])
      (catApplyPairs dict ps x) = catApplyPairs dict ps x
  apply foldl_fix
  intro kv hkv
  show setCol (catApplyPairs dict ps x) sd.2
      (fillWhere kv.2 (maskC (getCol (catApplyPairs dict ps x) sd.1) kv.1)
        (getCol (catApplyPairs dict ps x) sd.2)) =
      catApplyPairs dict ps x
  have hsrc : getCol (catApplyPairs dict ps x) sd.1 = getCol x sd.1 :=
    getCol_catApplyPairs_not_dest dict ps x sd.1 (hdisj sd hsd)
  rw [hsrc]
  rw [fillWhere_id kv.2 (maskC (getCol x sd.1) kv.1)
    (getCol (catApplyPairs dict ps x) sd.2)
    (fun i hi => catApplyPairs_none_masks dict ps x sd.2 i hdisj hi sd hsd rfl kv hkv)]
  exact setCol_getCol_self (catApplyPairs_names_nodup dict ps x hn)
    (colOf_ne_none_of_mem (catApplyPairs_mem_names dict ps x sd.2 (hdest sd hsd)))

/-- C4 counterexample: with chained pairs `("a","b"), ("b","c")` the first
pass fills column `b`, so the second pass bins a different `b` column and
fills a cell of `c` that the first pass left missing — transform applied
twice differs from transform applied once. -/
theorem claim_C4_counterexample :
    impChain.transform (impChain.transform frameChain) ≠ impChain.transform frameChain := by
  decide

/-- C4 (amended): transform is idempotent for the scalar-strategy imputer
and the outlier handler on any dataset with unique column names (and
uniquely configured columns, present in the dataset); for the four
group-statistic imputers it is idempotent under the additional condition
that no destination column is also a source column — the chained-pair
counterexample shows the condition cannot be dropped. -/
theorem claim_C4_idempotence :
    (∀ (ivs : List (String × Option Val)) (x : Frame),
      (names x).Nodup → (ivs.map Prod.fst).Nodup → (∀ cv ∈ ivs, cv.1 ∈ names x) →
      MissingImputer.transform ivs (MissingImputer.transform ivs x) =
        MissingImputer.transform ivs x) ∧
    (∀ (st : OutlierHandler) (x : Frame),
      (names x).Nodup → (st.strategies.map Prod.fst).Nodup →
      (∀ cs ∈ st.strategies, cs.1 ∈ names x) →
      st.transform (st.transform x) = st.transform x) ∧
    (∀ (st : NumAndNumImputer) (x : Frame),
      (names x).Nodup → (∀ sd ∈ st.column_pairs, sd.2 ∈ names x) →
      (∀ sd ∈ st.column_pairs, sd.1 ∉ st.column_pairs.map Prod.snd) →
      st.transform (st.transform x) = st.transform x) ∧
    (∀ (st : NumAndCatImputer) (x : Frame),
      (names x).Nodup → (∀ sd ∈ st.column_pairs, sd.2 ∈ names x) →
      (∀ sd ∈ st.column_pairs, sd.1 ∉ st.column_pairs.map Prod.snd) →
      st.transform (st.transform x) = st.transform x) ∧
    (∀ (st : CatAndNumImputer) (x : Frame),
      (names x).Nodup → (∀ sd ∈ st.column_pairs, sd.2 ∈ names x) →
      (∀ sd ∈ st.column_pairs, sd.1 ∉ st.column_pairs.map Prod.snd) →
      st.transform (st.transform x) = st.transform x) ∧
    (∀ (st : CatAndCatImputer) (x : Frame),
      (names x).Nodup → (∀ sd ∈ st.column_pairs, sd.2 ∈ names x) →
      (∀ sd ∈ st.column_pairs, sd.1 ∉ st.column_pairs.map Prod.snd) →
      st.transform (st.transform x) = st.transform x) := by
  refine ⟨?_, ?_, ?_, ?_, ?_, ?_⟩
  · intro ivs x hn hnd hcols
    exact MI_transform_idem ivs x hn hnd hcols
  · intro st x hn hnd hcols
    exact OH_transform_idem st x hn hnd hcols
  · intro st x hn hdest hdisj
    have hb2 : ∀ sd ∈ st.column_pairs,
        (fun s => binnedCol (specOf st.specs s) (getCol (NumAndNumImputer.transform st x) s)) sd.1 =
          (fun s => binnedCol (specOf st.specs s) (getCol x s)) sd.1 := by
      intro sd hsd
      show binnedCol (specOf st.specs sd.1) (getCol (NumAndNumImputer.transform st x) sd.1) =
        binnedCol (specOf st.specs sd.1) (getCol x sd.1)
      have h1 : getCol (NumAndNumImputer.transform st x) sd.1 = getCol x sd.1 :=
        getCol_numApplyPairs_not_dest (fun s => binnedCol (specOf st.specs s) (getCol x s))
          st.impute_value_dict st.column_pairs x sd.1 (hdisj sd hsd)
      rw [h1]
    exact numApplyPairs_idem (fun s => binnedCol (specOf st.specs s) (getCol x s))
      (fun s => binnedCol (specOf st.specs s) (getCol (NumAndNumImputer.transform st x) s))
      st.impute_value_dict st.column_pairs x hn hdest hb2
  · intro st x hn hdest hdisj
    have hb2 : ∀ sd ∈ st.column_pairs,
        (fun s => binnedCol (specOf st.specs s) (getCol (NumAndCatImputer.transform st x) s)) sd.1 =
          (fun s => binnedCol (specOf st.specs s) (getCol x s)) sd.1 := by
      intro sd hsd
      show binnedCol (specOf st.specs sd.1) (getCol (NumAndCatImputer.transform st x) sd.1) =
        binnedCol (specOf st.specs sd.1) (getCol x sd.1)
      have h1 : getCol (NumAndCatImputer.transform st x) sd.1 = getCol x sd.1 :=
        getCol_numApplyPairs_not_dest (fun s => binnedCol (specOf st.specs s) (getCol x s))
          st.impute_value_dict st.column_pairs x sd.1 (hdisj sd hsd)
      rw [h1]
    exact numApplyPairs_idem (fun s => binnedCol (specOf st.specs s) (getCol x s))
      (fun s => binnedCol (specOf st.specs s) (getCol (NumAndCatImputer.transform st x) s))
      st.impute_value_dict st.column_pairs x hn hdest hb2
  · intro st x hn hdest hdisj
    exact catApplyPairs_idem st.impute_value_dict st.column_pairs x hn hdest hdisj
  · intro st x hn hdest hdisj
    exact catApplyPairs_idem st.impute_value_dict st.column_pairs x hn hdest hdisj

theorem claim_C4_witness :
    MissingImputer.transform [("a", some (Val.num (Q.ofInt 7)))]
      (MissingImputer.transform [("a", some (Val.num (Q.ofInt 7)))]
        [("a", [cellQ 1, (none : Cell)])]) =
      MissingImputer.transform [("a", some (Val.num (Q.ofInt 7)))]
        [("a", [cellQ 1, (none : Cell)])] ∧
    ohNotebook.transform (ohNotebook.transform frameOut) = ohNotebook.transform frameOut ∧
    impSingle.transform (impSingle.transform frameNNt) = impSingle.transform frameNNt := by
  refine ⟨?_, ?_, ?_⟩
  · exact claim_C4_idempotence.1 [("a", some (Val.num (Q.ofInt 7)))]
      [("a", [cellQ 1, (none : Cell)])] (by decide) (by decide) (by decide)
  · exact claim_C4_idempotence.2.1 ohNotebook frameOut (by decide) (by decide) (by decide)
  · exact claim_C4_idempotence.2.2.1 impSingle frameNNt (by decide) (by decide) (by decide)

/-!
## Lemma layer: the zero-fill before binning (C9)

`fillna(0)` on the source columns is already performed inside `fit`
(`filledQ`) and inside `transform` (`binnedCol`), so pre-applying it to
the source columns of the frame changes nothing.
-/

theorem foldl_congr_mem {α β : Type} (f g : α → β → α) (l : List β) (a : α)
    (h : ∀ x b, b ∈ l → f x b = g x b) : l.foldl f a = l.foldl g a := by
  induction l generalizing a with
  | nil => rfl
  | cons b t ih =>
    rw [List.foldl_cons, List.foldl_cons, h a b (List.mem_cons_self b t)]
    exact ih _ (fun x c hc => h x c (List.mem_cons_of_mem b hc))

theorem getCol_zeroFillSrc_mem (srcs : List String) (x : Frame) (c : String)
    (hc : c ∈ srcs) :
    getCol (zeroFillSrc srcs x) c = (getCol x c).map zfCell := by
  have hpred : ((fun p : String × List Cell => decide (p.1 = c)) ∘
      (fun p : String × List Cell => if p.1 ∈ srcs then (p.1, p.2.map zfCell) else p)) =
      (fun p : String × List Cell => decide (p.1 = c)) := by
    funext p
    by_cases hp : p.1 ∈ srcs <;> simp [Function.comp, hp]
  have hfind : (zeroFillSrc srcs x).find? (fun p => decide (p.1 = c)) =
      (x.find? (fun p => decide (p.1 = c))).map
        (fun p => if p.1 ∈ srcs then (p.1, p.2.map zfCell) else p) := by
    unfold zeroFillSrc
    rw [List.find?_map, hpred]
  simp only [getCol, colOf, dictGet]
  rw [hfind]
  cases hf : x.find? (fun p => decide (p.1 = c)) with
  | none => rfl
  | some q =>
    have hq : q.1 = c := by
      have h2 := List.find?_some hf
      simpa using h2
    simp [hq, hc]

theorem getCol_zeroFillSrc_not_mem (srcs : List String) (x : Frame) (c : String)
    (hc : c ∉ srcs) :
    getCol (zeroFillSrc srcs x) c = getCol x c := by
  have hpred : ((fun p : String × List Cell => decide (p.1 = c)) ∘
      (fun p : String × List Cell => if p.1 ∈ srcs then (p.1, p.2.map zfCell) else p)) =
      (fun p : String × List Cell => decide (p.1 = c)) := by
    funext p
    by_cases hp : p.1 ∈ srcs <;> simp [Function.comp, hp]
  have hfind : (zeroFillSrc srcs x).find? (fun p => decide (p.1 = c)) =
      (x.find? (fun p => decide (p.1 = c))).map
        (fun p => if p.1 ∈ srcs then (p.1, p.2.map zfCell) else p) := by
    unfold zeroFillSrc
    rw [List.find?_map, hpred]
  simp only [getCol, colOf, dictGet]
  rw [hfind]
  cases hf : x.find? (fun p => decide (p.1 = c)) with
  | none => rfl
  | some q =>
    have hq : q.1 = c := by
      have h2 := List.find?_some hf
      simpa using h2
    simp [hq, hc]

/-- The zero-filled numeric view of a column is unchanged by a prior
`fillna(0)`. -/
theorem filledQ_zf (col : List Cell) : filledQ (col.map zfCell) = filledQ col := by
  simp only [filledQ, List.map_map]
  apply List.map_congr_left
  intro c _
  cases c <;> rfl

/-- The binned key column is unchanged by a prior `fillna(0)` of the
source column. -/
theorem binnedCol_zf (spec : BinSpec) (col : List Cell) :
    binnedCol spec (col.map zfCell) = binnedCol spec col := by
  simp only [binnedCol, List.map_map]
  apply List.map_congr_left
  intro c _
  cases c <;> rfl

/-- A missing source cell is keyed exactly as the literal value zero. -/
theorem binnedCol_none (spec : BinSpec) (col : List Cell) (i : ℕ)
    (h : col.get? i = some none) :
    (binnedCol spec col).get? i = some (Val.num (Q.ofNat (binOf spec (Q.ofInt 0)))) := by
  simp only [binnedCol]
  rw [List.get?_map, h]
  rfl

/-- Shared fit of the binned-source imputers is invariant under
pre-zero-filling the source columns (no destination may itself be a source
column, else its `dropna` would see the filled zeros). -/
theorem numFit_zeroFill (stat : List Val → Option Val) (pairs : List (String × String))
    (nb : ℕ) (strategy : String) (x : Frame)
    (hdisj : ∀ sd ∈ pairs, sd.2 ∉ pairs.map Prod.fst) :
    numFit stat pairs nb strategy (zeroFillSrc (pairs.map Prod.fst) x) =
      numFit stat pairs nb strategy x := by
  have hsrc : ∀ sd ∈ pairs, getCol (zeroFillSrc (pairs.map Prod.fst) x) sd.1 =
      (getCol x sd.1).map zfCell := fun sd hsd =>
    getCol_zeroFillSrc_mem _ x sd.1 (List.mem_map.mpr ⟨sd, hsd, rfl⟩)
  have hdst : ∀ sd ∈ pairs, getCol (zeroFillSrc (pairs.map Prod.fst) x) sd.2 =
      getCol x sd.2 := fun sd hsd =>
    getCol_zeroFillSrc_not_mem _ x sd.2 (hdisj sd hsd)
  have hspecs : pairs.map (fun sd => (sd.1, fitBinSpec strategy nb
      (filledQ (getCol (zeroFillSrc (pairs.map Prod.fst) x) sd.1)))) =
      pairs.map (fun sd => (sd.1, fitBinSpec strategy nb (filledQ (getCol x sd.1)))) := by
    apply List.map_congr_left
    intro sd hsd
    rw [hsrc sd hsd, filledQ_zf]
  simp only [numFit]
  rw [hspecs]
  congr 1
  apply foldl_congr_mem
  intro d sd hsd
  rw [hsrc sd hsd, binnedCol_zf, hdst sd hsd]

/-- The binned-source transform reads source columns only through the
snapshot key columns, so two frames agreeing outside the source columns,
transformed with agreeing snapshots, stay in agreement outside the source
columns (destinations must lie outside the source columns). -/
theorem numApplyPairs_cols_eq (dict : List (String × List (Val × Val)))
    (srcs : List String) (ps : List (String × String)) :
    ∀ (binned binned2 : String → List Val) (x z : Frame),
      (∀ sd ∈ ps, sd.2 ∉ srcs) →
      (∀ sd ∈ ps, binned2 sd.1 = binned sd.1) →
      (∀ c, c ∉ srcs → getCol z c = getCol x c) →
      ∀ c, c ∉ srcs →
        getCol (numApplyPairs binned2 dict ps z) c =
          getCol (numApplyPairs binned dict ps x) c := by
  induction ps with
  | nil =>
    intro binned binned2 x z _ _ hI c hc
    exact hI c hc
  | cons p t ih =>
    intro binned binned2 x z hdisj hb hI c hc
    have hstep1 : numApplyPairs binned2 dict (p :: t) z =
        numApplyPairs binned2 dict t
          (numPairStep (binned2 p.1) ((dictGet dict (p.1 ++ "_" ++ p.2)).getD []) p.2 z) := rfl
    have hstep2 : numApplyPairs binned dict (p :: t) x =
        numApplyPairs binned dict t
          (numPairStep (binned p.1) ((dictGet dict (p.1 ++ "_" ++ p.2)).getD []) p.2 x) := rfl
    rw [hstep1, hstep2]
    have hI2 : ∀ c2, c2 ∉ srcs →
        getCol (numPairStep (binned2 p.1) ((dictGet dict (p.1 ++ "_" ++ p.2)).getD []) p.2 z) c2 =
          getCol (numPairStep (binned p.1) ((dictGet dict (p.1 ++ "_" ++ p.2)).getD []) p.2 x) c2 := by
      intro c2 hc2
      rw [hb p (List.mem_cons_self p t)]
      by_cases hcd : c2 = p.2
      · subst hcd
        rw [getCol_numPairStep_same, getCol_numPairStep_same, hI p.2 hc2]
      · rw [getCol_numPairStep_ne _ _ _ _ _ hcd, getCol_numPairStep_ne _ _ _ _ _ hcd]
        exact hI c2 hc2
    exact ih binned binned2 _ _ (fun sd hsd => hdisj sd (List.mem_cons_of_mem p hsd))
      (fun sd hsd => hb sd (List.mem_cons_of_mem p hsd)) hI2 c hc

/-- C9: for the two binned-source imputers, missing source values are
zero-filled before binning, identically at fit and at transform time.
Concretely: a missing source cell receives exactly the bin key of the
literal value zero; the zero-filled numeric view used by fit and the
binned key column used by transform are invariant under pre-applying
`fillna(0)` to the column; consequently (sources and destinations
disjoint, since a zero-filled destination would alter the `dropna` of
fit) the full fit state and every non-source column of the transform
output are unchanged when the frame's source columns are zero-filled
beforehand. -/
theorem claim_C9_zero_fill_before_binning :
    (∀ (spec : BinSpec) (col : List Cell) (i : ℕ), col.get? i = some none →
      (binnedCol spec col).get? i = some (Val.num (Q.ofNat (binOf spec (Q.ofInt 0))))) ∧
    (∀ (spec : BinSpec) (col : List Cell),
      binnedCol spec (col.map zfCell) = binnedCol spec col) ∧
    (∀ (col : List Cell), filledQ (col.map zfCell) = filledQ col) ∧
    (∀ (pairs : List (String × String)) (nb : ℕ) (strategy : String) (x : Frame),
      (∀ sd ∈ pairs, sd.2 ∉ pairs.map Prod.fst) →
      NumAndNumImputer.fit pairs nb strategy (zeroFillSrc (pairs.map Prod.fst) x) =
        NumAndNumImputer.fit pairs nb strategy x) ∧
    (∀ (pairs : List (String × String)) (nb : ℕ) (strategy : String) (x : Frame),
      (∀ sd ∈ pairs, sd.2 ∉ pairs.map Prod.fst) →
      NumAndCatImputer.fit pairs nb strategy (zeroFillSrc (pairs.map Prod.fst) x) =
        NumAndCatImputer.fit pairs nb strategy x) ∧
    (∀ (st : NumAndNumImputer) (x : Frame) (c : String),
      (∀ sd ∈ st.column_pairs, sd.2 ∉ st.column_pairs.map Prod.fst) →
      c ∉ st.column_pairs.map Prod.fst →
      getCol (st.transform (zeroFillSrc (st.column_pairs.map Prod.fst) x)) c =
        getCol (st.transform x) c) ∧
    (∀ (st : NumAndCatImputer) (x : Frame) (c : String),
      (∀ sd ∈ st.column_pairs, sd.2 ∉ st.column_pairs.map Prod.fst) →
      c ∉ st.column_pairs.map Prod.fst →
      getCol (st.transform (zeroFillSrc (st.column_pairs.map Prod.fst) x)) c =
        getCol (st.transform x) c) := by
  refine ⟨binnedCol_none, binnedCol_zf, filledQ_zf, ?_, ?_, ?_, ?_⟩
  · intro pairs nb strategy x hdisj
    show (⟨pairs, (numFit medianStat pairs nb strategy (zeroFillSrc (pairs.map Prod.fst) x)).1,
        (numFit medianStat pairs nb strategy (zeroFillSrc (pairs.map Prod.fst) x)).2⟩ :
          NumAndNumImputer) =
      ⟨pairs, (numFit medianStat pairs nb strategy x).1, (numFit medianStat pairs nb strategy x).2⟩
    rw [numFit_zeroFill medianStat pairs nb strategy x hdisj]
  · intro pairs nb strategy x hdisj
    show (⟨pairs, (numFit modeStat pairs nb strategy (zeroFillSrc (pairs.map Prod.fst) x)).1,
        (numFit modeStat pairs nb strategy (zeroFillSrc (pairs.map Prod.fst) x)).2⟩ :
          NumAndCatImputer) =
      ⟨pairs, (numFit modeStat pairs nb strategy x).1, (numFit modeStat pairs nb strategy x).2⟩
    rw [numFit_zeroFill modeStat pairs nb strategy x hdisj]
  · intro st x c hdisj hc
    have hb : ∀ sd ∈ st.column_pairs,
        (fun s => binnedCol (specOf st.specs s)
          (getCol (zeroFillSrc (st.column_pairs.map Prod.fst) x) s)) sd.1 =
        (fun s => binnedCol (specOf st.specs s) (getCol x s)) sd.1 := by
      intro sd hsd
      show binnedCol (specOf st.specs sd.1)
          (getCol (zeroFillSrc (st.column_pairs.map Prod.fst) x) sd.1) =
        binnedCol (specOf st.specs sd.1) (getCol x sd.1)
      rw [getCol_zeroFillSrc_mem _ x sd.1 (List.mem_map.mpr ⟨sd, hsd, rfl⟩), binnedCol_zf]
    exact numApplyPairs_cols_eq st.impute_value_dict (st.column_pairs.map Prod.fst)
      st.column_pairs (fun s => binnedCol (specOf st.specs s) (getCol x s))
      (fun s => binnedCol (specOf st.specs s)
        (getCol (zeroFillSrc (st.column_pairs.map Prod.fst) x) s))
      x (zeroFillSrc (st.column_pairs.map Prod.fst) x) hdisj hb
      (fun c2 hc2 => getCol_zeroFillSrc_not_mem _ x c2 hc2) c hc
  · intro st x c hdisj hc
    have hb : ∀ sd ∈ st.column_pairs,
        (fun s => binnedCol (specOf st.specs s)
          (getCol (zeroFillSrc (st.column_pairs.map Prod.fst) x) s)) sd.1 =
        (fun s => binnedCol (specOf st.specs s) (getCol x s)) sd.1 := by
      intro sd hsd
      show binnedCol (specOf st.specs sd.1)
          (getCol (zeroFillSrc (st.column_pairs.map Prod.fst) x) sd.1) =
        binnedCol (specOf st.specs sd.1) (getCol x sd.1)
      rw [getCol_zeroFillSrc_mem _ x sd.1 (List.mem_map.mpr ⟨sd, hsd, rfl⟩), binnedCol_zf]
    exact numApplyPairs_cols_eq st.impute_value_dict (st.column_pairs.map Prod.fst)
      st.column_pairs (fun s => binnedCol (specOf st.specs s) (getCol x s))
      (fun s => binnedCol (specOf st.specs s)
        (getCol (zeroFillSrc (st.column_pairs.map Prod.fst) x) s))
      x (zeroFillSrc (st.column_pairs.map Prod.fst) x) hdisj hb
      (fun c2 hc2 => getCol_zeroFillSrc_not_mem _ x c2 hc2) c hc

theorem claim_C9_witness :
    (binnedCol (BinSpec.edges [Q.ofInt 5]) [(none : Cell)]).get? 0 =
      some (Val.num (Q.ofNat (binOf (BinSpec.edges [Q.ofInt 5]) (Q.ofInt 0)))) ∧
    NumAndNumImputer.fit [("s2", "d")] 2 "uniform" (zeroFillSrc ["s2"] frameNNfit) =
      NumAndNumImputer.fit [("s2", "d")] 2 "uniform" frameNNfit ∧
    getCol (impSingle.transform (zeroFillSrc (impSingle.column_pairs.map Prod.fst) frameNNt))
        "d" = getCol (impSingle.transform frameNNt) "d" := by
  refine ⟨?_, ?_, ?_⟩
  · exact claim_C9_zero_fill_before_binning.1 (BinSpec.edges [Q.ofInt 5]) [(none : Cell)] 0 rfl
  · exact claim_C9_zero_fill_before_binning.2.2.2.1 [("s2", "d")] 2 "uniform" frameNNfit
      (by decide)
  · exact claim_C9_zero_fill_before_binning.2.2.2.2.2.1 impSingle frameNNt "d"
      (by decide) (by decide)
